import Mathlib

/-!
# Constant folding of quantization barriers (`ConvertConst.cpp`)

A shallow embedding of `QuantizedConstRewrite::matchAndRewrite` and
`ConvertConstPass::runOnOperation` from
`tensorflow/compiler/mlir/lite/quantization/ir/ConvertConst.cpp`.

The two functions are translated statement by statement.  Everything they call
belongs to the compiler framework and is not part of the translated file: the
type queries, `quantizeAttr` and `getFusedLoc` are taken as parameters
(`Framework`), and the IR together with the rewriter primitives is given by a
small explicit model of a function body (a list of operations with pointer
identities).
-/

namespace ConvertConst

/-! ## Data model -/

/-- A uniqued IR type, identified by its handle. -/
structure Ty where
  handle : Nat
deriving DecidableEq, Repr

/-- A non-null `quant::QuantizedType` handle. -/
structure QuantizedType where
  handle : Nat
deriving DecidableEq, Repr

/-- Attribute classes.  The three classes the pass names and a few others are
listed; any further class is `other`. -/
inductive AttrKind
  | FloatAttr
  | IntegerAttr
  | DenseElementsAttr
  | SparseElementsAttr
  | StringAttr
  | UnitAttr
  | other (classId : Nat)
deriving DecidableEq, Repr

/-- A uniqued attribute: its class and the handle of its payload. -/
structure Attribute where
  kind : AttrKind
  handle : Nat
deriving DecidableEq, Repr

/-- The variadic `value.isa<K1, K2, ...>()`. -/
def Attribute.isa (value : Attribute) (kinds : List AttrKind) : Bool :=
  kinds.contains value.kind

/-- A source location handle. -/
structure Location where
  handle : Nat
deriving DecidableEq, Repr

/-- Identity of an operation (its address). -/
abbrev OpId := Nat

/-- Where a value comes from: a result of an operation or a block argument. -/
inductive ValueSource
  | opResult (owner : OpId) (index : Nat)
  | blockArgument (index : Nat)
deriving DecidableEq, Repr

/-- An SSA value: its identity and its static type. -/
structure Value where
  source : ValueSource
  type : Ty
deriving DecidableEq, Repr

/-- Registered operation names.  Only the three operations the pass names are
distinguished; every other operation is `other` and records whether its class
carries the `ConstantLike` trait. -/
inductive OpName
  | QuantizeCastOp
  | StorageCastOp
  | ConstantOp
  | other (name : Nat) (constantLike : Bool)
deriving DecidableEq, Repr

/-- `op->hasTrait<OpTrait::ConstantLike>()`: `arith::ConstantOp` has the trait,
the two quantization casts do not. -/
def OpName.hasConstantLikeTrait : OpName → Bool
  | .ConstantOp => true
  | .other _ constantLike => constantLike
  | .QuantizeCastOp => false
  | .StorageCastOp => false

/-- An operation of a function body. -/
structure Operation where
  id : OpId
  name : OpName
  operands : List Value
  resultTypes : List Ty
  value : Option Attribute
  loc : Location
deriving DecidableEq, Repr

/-- The single result of a one-result operation, as a value. -/
def Operation.result (op : Operation) (type : Ty) : Value :=
  ⟨.opResult op.id 0, type⟩

/-- A function body: its operations in order, and the next unused identity. -/
structure FuncBody where
  ops : List Operation
  nextId : OpId
deriving DecidableEq, Repr

/-- The operation with the given identity, if it is in the body. -/
def FuncBody.lookup (func : FuncBody) (id : OpId) : Option Operation :=
  func.ops.find? (fun op => op.id == id)

/-- `value.getDefiningOp()`: null for a block argument. -/
def getDefiningOp (func : FuncBody) (value : Value) : Option Operation :=
  match value.source with
  | .blockArgument _ => none
  | .opResult owner _ => func.lookup owner

/-- `success()` / `failure()`. -/
inductive LogicalResult
  | success
  | failure
deriving DecidableEq, Repr

/-- Ways in which the translated code can leave defined behaviour. -/
inductive Fault
  | nullDereference
deriving DecidableEq, Repr

/-- A typed view of a `quantfork.qcast` operation: one operand, one result. -/
structure QuantizeCastOp where
  id : OpId
  arg : Value
  resultType : Ty
  loc : Location
deriving DecidableEq, Repr

/-- `dyn_cast<QuantizeCastOp>(op)`. -/
def QuantizeCastOp.dynCast (op : Operation) : Option QuantizeCastOp :=
  match op.name, op.operands, op.resultTypes with
  | .QuantizeCastOp, [arg], [resultType] => some ⟨op.id, arg, resultType, op.loc⟩
  | _, _, _ => none

/-- `qbarrier.getArg()`. -/
def QuantizeCastOp.getArg (qbarrier : QuantizeCastOp) : Value := qbarrier.arg

/-- `qbarrier.getResult()`. -/
def QuantizeCastOp.getResult (qbarrier : QuantizeCastOp) : Value :=
  ⟨.opResult qbarrier.id 0, qbarrier.resultType⟩

/-- `qbarrier.getType()`: the type of the single result. -/
def QuantizeCastOp.getType (qbarrier : QuantizeCastOp) : Ty := qbarrier.resultType

/-- `qbarrier.getLoc()`. -/
def QuantizeCastOp.getLoc (qbarrier : QuantizeCastOp) : Location := qbarrier.loc

/-! ## Framework functions the pass calls -/

/-- Functions of the quantization utilities and the builder that
`matchAndRewrite` calls and whose bodies are outside the translated file.
A null `Type`, `QuantizedType` or `Attribute` is `none`.  `quantizeAttr` returns
the converted attribute together with the type it stores in its out-parameter;
a null attribute is `none`. -/
structure Framework where
  getQuantizedElementType : Ty → Option QuantizedType
  castToStorageType : Ty → Option Ty
  isCompatibleExpressedType : QuantizedType → Ty → Bool
  quantizeAttr : Attribute → QuantizedType → Option (Attribute × Ty)
  getFusedLoc : List Location → Location

/-- Modelled from the spec: `m_Constant(&value)` of the framework's matchers,
which is not in the translated file.  "The input Value is a compile-time
constant with a literal payload": the operation carries the `ConstantLike`
trait and folds to its literal payload. -/
def m_Constant (op : Operation) : Option Attribute :=
  if op.name.hasConstantLikeTrait then op.value else none

/-- Modelled from the spec: `matchPattern(value, pattern)` of the framework's
matchers, which is not in the translated file.  A value is matched through the
operation that defines it; a value without a defining operation does not
match. -/
def matchPattern (func : FuncBody) (value : Value)
    (pattern : Operation → Option Attribute) : Option Attribute :=
  match getDefiningOp func value with
  | some op => pattern op
  | none => none

/-! ## The rewriter -/

/-- Insert `newOp` immediately before the operation `before` (at the end when
`before` is not in the list). -/
def insertBefore (before : OpId) (newOp : Operation) : List Operation → List Operation
  | [] => [newOp]
  | op :: rest =>
    if op.id = before then newOp :: op :: rest
    else op :: insertBefore before newOp rest

/-- Replace every use of the value `old` by `new` in one operand list. -/
def replaceUses (old : ValueSource) (new : Value) (operands : List Value) : List Value :=
  operands.map (fun v => if v.source = old then new else v)

/-- Replace every use of `old` by `new` in an operation. -/
def Operation.replaceUsesOfWith (old : ValueSource) (new : Value) (op : Operation) :
    Operation :=
  { op with operands := replaceUses old new op.operands }

/-- Remove the operation with identity `id`. -/
def eraseOp (id : OpId) (ops : List Operation) : List Operation :=
  ops.filter (fun op => op.id != id)

/-- The pattern rewriter: the function body being rewritten and the insertion
point (new operations are inserted before that operation). -/
structure PatternRewriter where
  func : FuncBody
  insertionPoint : OpId
deriving DecidableEq, Repr

/-- The framework primitive `rewriter.create<OpTy>(loc, ...)` for a one-result
operation: the new operation gets a fresh identity and is inserted at the
insertion point. -/
def PatternRewriter.create (rewriter : PatternRewriter) (loc : Location) (name : OpName)
    (operands : List Value) (resultType : Ty) (value : Option Attribute) :
    Operation × PatternRewriter :=
  let newOp : Operation :=
    { id := rewriter.func.nextId, name := name, operands := operands,
      resultTypes := [resultType], value := value, loc := loc }
  (newOp,
   { rewriter with
     func := { ops := insertBefore rewriter.insertionPoint newOp rewriter.func.ops,
               nextId := rewriter.func.nextId + 1 } })

/-- The framework primitive `rewriter.replaceOp(op, newValue)` for a one-result
operation: all uses of the result are replaced by `newValue` and the operation
is erased. -/
def PatternRewriter.replaceOp (rewriter : PatternRewriter) (op : OpId) (newValue : Value) :
    PatternRewriter :=
  { rewriter with
    func := { rewriter.func with
      ops := eraseOp op
        (rewriter.func.ops.map (Operation.replaceUsesOfWith (.opResult op 0) newValue)) } }

/-- The framework primitive
`rewriter.replaceOpWithNewOp<OpTy>(op, resultType, operand)`: the new operation
is created at the location of `op` (`op` and `opLoc` are the identity and the
location of the operation handle), then `op` is replaced by its result. -/
def PatternRewriter.replaceOpWithNewOp (rewriter : PatternRewriter) (op : OpId)
    (opLoc : Location) (name : OpName) (resultType : Ty) (operand : Value) :
    PatternRewriter :=
  let (newOp, rewriter1) := rewriter.create opLoc name [operand] resultType none
  rewriter1.replaceOp op (newOp.result resultType)

/-! ## `QuantizedConstRewrite::matchAndRewrite` -/

/-- Matches a [constant] -> [qbarrier] where the qbarrier results type is
quantized and the operand type is quantizable. -/
def matchAndRewrite (fw : Framework) (qbarrier : QuantizeCastOp)
    (rewriter : PatternRewriter) : Except Fault (LogicalResult × PatternRewriter) :=
  -- Is the operand a constant?
  match matchPattern rewriter.func qbarrier.getArg m_Constant with
  | none => .ok (.failure, rewriter)
  | some value =>
    -- Does the qbarrier convert to a quantized type.
    let qbarrierResultType := qbarrier.getResult.type
    match fw.getQuantizedElementType qbarrierResultType with
    | none => .ok (.failure, rewriter)
    | some quantizedElementType =>
      match fw.castToStorageType qbarrierResultType with
      | none => .ok (.failure, rewriter)
      | some _ =>
        -- Is the operand type compatible with the expressed type of the
        -- quantized type?
        if !fw.isCompatibleExpressedType quantizedElementType qbarrier.getArg.type then
          .ok (.failure, rewriter)
        -- Is the constant value a type expressed in a way that we support?
        else if !value.isa [.FloatAttr, .DenseElementsAttr, .SparseElementsAttr] then
          .ok (.failure, rewriter)
        else
          match fw.quantizeAttr value quantizedElementType with
          | none => .ok (.failure, rewriter)
          | some (newConstValue, newConstValueType) =>
            -- When creating the new const op, use a fused location that
            -- combines the original const and the qbarrier.
            match getDefiningOp rewriter.func qbarrier.getArg with
            | none => .error .nullDereference
            | some definingOp =>
              let fusedLoc := fw.getFusedLoc [definingOp.loc, qbarrier.getLoc]
              let (newConstOp, rewriter1) :=
                rewriter.create fusedLoc .ConstantOp [] newConstValueType (some newConstValue)
              let rewriter2 :=
                rewriter1.replaceOpWithNewOp qbarrier.id qbarrier.getLoc .StorageCastOp
                  qbarrier.getType (newConstOp.result newConstValueType)
              .ok (.success, rewriter2)

/-! ## `ConvertConstPass::runOnOperation` -/

/-- A rewrite pattern as the driver sees it: applied to an operation with a
rewriter positioned at that operation. -/
abbrev RewritePattern :=
  Operation → PatternRewriter → Except Fault (LogicalResult × PatternRewriter)

/-- The pattern `QuantizedConstRewrite`, an `OpRewritePattern<QuantizeCastOp>`:
it applies to `QuantizeCastOp` operations only. -/
def QuantizedConstRewrite (fw : Framework) : RewritePattern :=
  fun op rewriter =>
    match QuantizeCastOp.dynCast op with
    | some qbarrier => matchAndRewrite fw qbarrier rewriter
    | none => .ok (.failure, rewriter)

/-- The pass running on one function: the function body it operates on and
whether `signalPassFailure` has been called. -/
structure ConvertConstPass where
  func : FuncBody
  passFailed : Bool
deriving DecidableEq, Repr

/-- The rewrite driver `applyPatternsAndFoldGreedily`, as a function from the
body and the pattern set to its result and the rewritten body. -/
abbrev GreedyDriver := FuncBody → List RewritePattern → LogicalResult × FuncBody

/-- The pass body: collect the one pattern, run the driver on the function and
discard the driver's result. -/
def runOnOperation (fw : Framework) (applyPatternsAndFoldGreedily : GreedyDriver)
    (pass : ConvertConstPass) : ConvertConstPass :=
  let patterns : List RewritePattern := []
  let func := pass.func
  let patterns := patterns ++ [QuantizedConstRewrite fw]
  let (_, func') := applyPatternsAndFoldGreedily func patterns
  { pass with func := func' }

/-! ## A concrete instance -/

/-- A small framework instance: types 0 (`f32`) and 1 (`tensor<3xf32>`) are
expressed types, types 2 and 3 are the uniform quantized type over `f32` and
its tensor, types 4 and 5 their storage types.  Quantizing maps the payload
handle `h` to `h + 100`; fusing locations records their handles in order. -/
def sampleFramework : Framework where
  getQuantizedElementType := fun t =>
    if t.handle = 2 ∨ t.handle = 3 then some ⟨0⟩ else none
  castToStorageType := fun t =>
    if t.handle = 2 then some ⟨4⟩ else if t.handle = 3 then some ⟨5⟩ else none
  isCompatibleExpressedType := fun _ t => decide (t.handle = 0 ∨ t.handle = 1)
  quantizeAttr := fun value _ =>
    match value.kind with
    | .FloatAttr => some (⟨.IntegerAttr, value.handle + 100⟩, ⟨4⟩)
    | .DenseElementsAttr => some (⟨.DenseElementsAttr, value.handle + 100⟩, ⟨5⟩)
    | _ => none
  getFusedLoc := fun locs => ⟨locs.foldl (fun acc l => acc * 1000 + l.handle) 0⟩

/-- The cast `%1 = qcast %0 : tensor<3xf32> to tensor<3x!quant.uniform>`. -/
def sampleCast : QuantizeCastOp :=
  { id := 1, arg := ⟨.opResult 0 0, ⟨1⟩⟩, resultType := ⟨3⟩, loc := ⟨11⟩ }

/-- The body `%0 = constant dense<..>; %1 = qcast %0; return %1`. -/
def sampleBody : FuncBody :=
  { ops := [
      { id := 0, name := .ConstantOp, operands := [], resultTypes := [⟨1⟩],
        value := some ⟨.DenseElementsAttr, 7⟩, loc := ⟨10⟩ },
      { id := 1, name := .QuantizeCastOp, operands := [⟨.opResult 0 0, ⟨1⟩⟩],
        resultTypes := [⟨3⟩], value := none, loc := ⟨11⟩ },
      { id := 2, name := .other 0 false, operands := [⟨.opResult 1 0, ⟨3⟩⟩],
        resultTypes := [], value := none, loc := ⟨12⟩ }],
    nextId := 3 }

/-- The body after folding the cast of `sampleBody`. -/
def sampleFolded : FuncBody :=
  { ops := [
      { id := 0, name := .ConstantOp, operands := [], resultTypes := [⟨1⟩],
        value := some ⟨.DenseElementsAttr, 7⟩, loc := ⟨10⟩ },
      { id := 3, name := .ConstantOp, operands := [], resultTypes := [⟨5⟩],
        value := some ⟨.DenseElementsAttr, 107⟩, loc := ⟨10011⟩ },
      { id := 4, name := .StorageCastOp, operands := [⟨.opResult 3 0, ⟨5⟩⟩],
        resultTypes := [⟨3⟩], value := none, loc := ⟨11⟩ },
      { id := 2, name := .other 0 false, operands := [⟨.opResult 4 0, ⟨3⟩⟩],
        resultTypes := [], value := none, loc := ⟨12⟩ }],
    nextId := 5 }

/-- A cast of a block argument: `%0 = qcast %arg0; return %0`. -/
def argCast : QuantizeCastOp :=
  { id := 0, arg := ⟨.blockArgument 0, ⟨1⟩⟩, resultType := ⟨3⟩, loc := ⟨11⟩ }

/-- The body around `argCast`. -/
def argBody : FuncBody :=
  { ops := [
      { id := 0, name := .QuantizeCastOp, operands := [⟨.blockArgument 0, ⟨1⟩⟩],
        resultTypes := [⟨3⟩], value := none, loc := ⟨11⟩ },
      { id := 1, name := .other 0 false, operands := [⟨.opResult 0 0, ⟨3⟩⟩],
        resultTypes := [], value := none, loc := ⟨12⟩ }],
    nextId := 2 }

/-- A cast of a float constant to a float type: the result type (handle 0) is
not quantized. -/
def floatCast : QuantizeCastOp :=
  { id := 1, arg := ⟨.opResult 0 0, ⟨1⟩⟩, resultType := ⟨0⟩, loc := ⟨11⟩ }

/-- A driver that does nothing and reports failure. -/
def idleDriver : GreedyDriver := fun func _ => (.failure, func)

/-- The same body with a sparse payload on the constant; `sampleFramework`
cannot quantize it. -/
def sparseBody : FuncBody :=
  { ops := [
      { id := 0, name := .ConstantOp, operands := [], resultTypes := [⟨1⟩],
        value := some ⟨.SparseElementsAttr, 7⟩, loc := ⟨10⟩ },
      { id := 1, name := .QuantizeCastOp, operands := [⟨.opResult 0 0, ⟨1⟩⟩],
        resultTypes := [⟨3⟩], value := none, loc := ⟨11⟩ },
      { id := 2, name := .other 0 false, operands := [⟨.opResult 1 0, ⟨3⟩⟩],
        resultTypes := [], value := none, loc := ⟨12⟩ }],
    nextId := 3 }

/-! ## Repeated application of the pattern -/

/-- Number of operations of the body with the given name. -/
def FuncBody.countOps (func : FuncBody) (name : OpName) : Nat :=
  func.ops.countP (fun op => op.name == name)

/-- One successful application of `matchAndRewrite` to a `QuantizeCastOp` of
the body, with the rewriter positioned at that operation. -/
def RewriteStep (fw : Framework) (func func' : FuncBody) : Prop :=
  ∃ op ∈ func.ops, ∃ q, QuantizeCastOp.dynCast op = some q ∧
    ∃ rw', matchAndRewrite fw q ⟨func, q.id⟩ = .ok (.success, rw') ∧ rw'.func = func'

/-- A sequence of `n` successful applications. -/
inductive RewriteSteps (fw : Framework) : Nat → FuncBody → FuncBody → Prop
  | refl (func : FuncBody) : RewriteSteps fw 0 func func
  | step {n : Nat} {func mid func' : FuncBody} :
      RewriteStep fw func mid → RewriteSteps fw n mid func' →
      RewriteSteps fw (n + 1) func func'

/-! ## The rewrite driver -/

/-- Whether the value is a result of the operation `id`. -/
def ValueSource.isResultOf (id : OpId) : ValueSource → Bool
  | .opResult owner _ => owner == id
  | .blockArgument _ => false

/-- Whether some operation of the body uses a result of the operation `id`. -/
def FuncBody.hasUses (func : FuncBody) (id : OpId) : Bool :=
  func.ops.any (fun op => op.operands.any (fun v => v.source.isResultOf id))

/-- Modelled from the spec: the clean-up the rewrite driver (not in the
translated file) performs after a rewrite, "remove ... the original float
constant if it has no other uses": the operation defining a former operand of
the rewritten operation is erased when none of its results is used any more. -/
def eraseIfUnused (func : FuncBody) (operand : Value) : FuncBody :=
  match operand.source with
  | .opResult owner _ =>
    if func.hasUses owner then func else { func with ops := eraseOp owner func.ops }
  | .blockArgument _ => func

/-- Modelled from the spec: `try_rewrite(op) -> Option<Replacement>` of the
rewrite driver, which is not in the translated file: the first pattern of the
set that succeeds on the operation gives the rewritten state; a pattern that
does not return success leaves the operation to the next pattern. -/
def applyPatterns (patterns : List RewritePattern) (op : Operation)
    (rewriter : PatternRewriter) : Option PatternRewriter :=
  match patterns with
  | [] => none
  | pattern :: rest =>
    match pattern op rewriter with
    | .ok (.success, rewriter') => some rewriter'
    | _ => applyPatterns rest op rewriter

/-- Modelled from the spec: one work-list item of the rewrite driver, which is
not in the translated file.  "Attempt the rewrite; leave unmatched operations
untouched": the rewriter is positioned at the operation, and after a
successful rewrite the operations that defined its operands are cleaned up. -/
def visit (patterns : List RewritePattern) (func : FuncBody) (id : OpId) :
    Bool × FuncBody :=
  match func.lookup id with
  | none => (false, func)
  | some op =>
    match applyPatterns patterns op ⟨func, id⟩ with
    | some rewriter' => (true, op.operands.foldl eraseIfUnused rewriter'.func)
    | none => (false, func)

/-- Modelled from the spec: one traversal of the work list by the rewrite
driver, which is not in the translated file; reports whether anything
changed. -/
def sweep (patterns : List RewritePattern) : List OpId → FuncBody → Bool × FuncBody
  | [], func => (false, func)
  | id :: rest, func =>
    let (changed, func1) := visit patterns func id
    let (changed', func2) := sweep patterns rest func1
    (changed || changed', func2)

/-- Modelled from the spec: "iterate to a fixed point, bounded by the external
rewrite-driver's iteration limit": traverse all operations of the body, and
again while something changed and further iterations are allowed. -/
def simplify (patterns : List RewritePattern) : Nat → FuncBody → LogicalResult × FuncBody
  | 0, func =>
    let (changed, func') := sweep patterns (func.ops.map (fun op => op.id)) func
    (if changed then .failure else .success, func')
  | further + 1, func =>
    let (changed, func') := sweep patterns (func.ops.map (fun op => op.id)) func
    if changed then simplify patterns further func' else (.success, func')

/-- Modelled from the spec: `applyPatternsAndFoldGreedily` of the rewrite
driver, which is not in the translated file, with its iteration limit: at
least one and at most `maxIterations` traversals; the result tells whether a
fixed point was reached. -/
def greedyDriver (maxIterations : Nat) : GreedyDriver :=
  fun func patterns => simplify patterns (maxIterations - 1) func

/-- The body `sampleBody` after the pass: the float constant, whose only use
was the cast, is gone as well. -/
def samplePassed : FuncBody :=
  { ops := [
      { id := 3, name := .ConstantOp, operands := [], resultTypes := [⟨5⟩],
        value := some ⟨.DenseElementsAttr, 107⟩, loc := ⟨10011⟩ },
      { id := 4, name := .StorageCastOp, operands := [⟨.opResult 3 0, ⟨5⟩⟩],
        resultTypes := [⟨3⟩], value := none, loc := ⟨11⟩ },
      { id := 2, name := .other 0 false, operands := [⟨.opResult 4 0, ⟨3⟩⟩],
        resultTypes := [], value := none, loc := ⟨12⟩ }],
    nextId := 5 }

/-! ## Well-formed bodies and the shape of a successful rewrite -/

/-- The owner of an operation result lies below `bound`. -/
def ValueSource.ownerBelow (bound : OpId) : ValueSource → Bool
  | .opResult owner _ => decide (owner < bound)
  | .blockArgument _ => true

/-- Representation invariant of a function body: operations have distinct
identities, and every identity in use (of an operation, or as owner of an
operand) is below `nextId`. -/
def FuncBody.WellFormed (func : FuncBody) : Prop :=
  (func.ops.map (fun op => op.id)).Nodup ∧
  (∀ op ∈ func.ops, op.id < func.nextId) ∧
  (∀ op ∈ func.ops, ∀ v ∈ op.operands, v.source.ownerBelow func.nextId = true)

instance (func : FuncBody) : Decidable func.WellFormed := by
  unfold FuncBody.WellFormed; infer_instance

/-- The constant created by a successful rewrite. -/
def newConstOpOf (fw : Framework) (func : FuncBody) (qbarrier : QuantizeCastOp)
    (definingOp : Operation) (newConstValue : Attribute) (newConstValueType : Ty) :
    Operation :=
  { id := func.nextId, name := .ConstantOp, operands := [],
    resultTypes := [newConstValueType], value := some newConstValue,
    loc := fw.getFusedLoc [definingOp.loc, qbarrier.getLoc] }

/-- The storage cast created by a successful rewrite. -/
def storageCastOpOf (func : FuncBody) (qbarrier : QuantizeCastOp) (newConstValueType : Ty) :
    Operation :=
  { id := func.nextId + 1, name := .StorageCastOp,
    operands := [⟨.opResult func.nextId 0, newConstValueType⟩],
    resultTypes := [qbarrier.getType], value := none, loc := qbarrier.getLoc }

/-- The value that takes the place of the result of the rewritten cast. -/
def storageCastResult (func : FuncBody) (qbarrier : QuantizeCastOp) : Value :=
  ⟨.opResult (func.nextId + 1) 0, qbarrier.getType⟩

/-- No operation of the body whose identity is outside `ids` is rewritten by
the pattern. -/
def SettledOutside (fw : Framework) (func : FuncBody) (ids : List OpId) : Prop :=
  ∀ op ∈ func.ops, op.id ∉ ids →
    applyPatterns [QuantizedConstRewrite fw] op ⟨func, op.id⟩ = none

/-- No operation of the body is rewritten by the pattern. -/
def Settled (fw : Framework) (func : FuncBody) : Prop :=
  ∀ op ∈ func.ops, applyPatterns [QuantizedConstRewrite fw] op ⟨func, op.id⟩ = none

theorem matchAndRewrite_success_inv {fw : Framework} {q : QuantizeCastOp}
    {rw rw' : PatternRewriter}
    (h : matchAndRewrite fw q rw = .ok (.success, rw')) :
    ∃ value qty sty nv nty definingOp,
      matchPattern rw.func q.getArg m_Constant = some value ∧
      fw.getQuantizedElementType q.getResult.type = some qty ∧
      fw.castToStorageType q.getResult.type = some sty ∧
      fw.isCompatibleExpressedType qty q.getArg.type = true ∧
      value.isa [.FloatAttr, .DenseElementsAttr, .SparseElementsAttr] = true ∧
      fw.quantizeAttr value qty = some (nv, nty) ∧
      getDefiningOp rw.func q.getArg = some definingOp ∧
      rw' = (((rw.create (fw.getFusedLoc [definingOp.loc, q.getLoc]) .ConstantOp []
                nty (some nv)).2).replaceOpWithNewOp q.id q.getLoc .StorageCastOp q.getType
                ((rw.create (fw.getFusedLoc [definingOp.loc, q.getLoc]) .ConstantOp []
                nty (some nv)).1.result nty)) := by
  unfold matchAndRewrite at h
  split at h
  · simp at h
  · rename_i value hv
    simp only at h
    split at h
    · simp at h
    · rename_i qty hq
      split at h
      · simp at h
      · rename_i sty hs
        split at h
        · simp at h
        · rename_i hc
          split at h
          · simp at h
          · rename_i hk
            split at h
            · simp at h
            · rename_i nv nty hn
              split at h
              · simp at h
              · rename_i definingOp hd
                simp only [Except.ok.injEq, Prod.mk.injEq, true_and] at h
                refine ⟨value, qty, sty, nv, nty, definingOp, hv, hq, hs, ?_, ?_, hn, hd, h.symm⟩
                · simpa using hc
                · simpa using hk

theorem dynCast_some {op : Operation} {q : QuantizeCastOp}
    (h : QuantizeCastOp.dynCast op = some q) :
    op.name = .QuantizeCastOp ∧ op.operands = [q.arg] ∧ op.resultTypes = [q.resultType] ∧
      q.id = op.id ∧ q.loc = op.loc := by
  unfold QuantizeCastOp.dynCast at h
  split at h
  · rename_i arg resultType hn ho hr
    simp only [Option.some.injEq] at h
    subst h
    exact ⟨hn, ho, hr, rfl, rfl⟩
  · simp at h

theorem insertBefore_split (x qop : Operation) (pre post : List Operation)
    (hpre : ∀ op ∈ pre, op.id ≠ qop.id) :
    insertBefore qop.id x (pre ++ qop :: post) = pre ++ x :: qop :: post := by
  induction pre with
  | nil => simp [insertBefore]
  | cons a pre ih =>
    have ha : a.id ≠ qop.id := hpre a (List.mem_cons_self _ _)
    have ih' := ih (fun op hop => hpre op (List.mem_cons_of_mem _ hop))
    simp [insertBefore, ha, ih']

theorem replaceUsesOfWith_id (old : ValueSource) (new : Value) (op : Operation) :
    (op.replaceUsesOfWith old new).id = op.id := rfl

theorem replaceUsesOfWith_name (old : ValueSource) (new : Value) (op : Operation) :
    (op.replaceUsesOfWith old new).name = op.name := rfl

theorem replaceUsesOfWith_value (old : ValueSource) (new : Value) (op : Operation) :
    (op.replaceUsesOfWith old new).value = op.value := rfl

theorem eraseOp_map_of_ne (old : ValueSource) (new : Value) (id : OpId)
    (l : List Operation) (hl : ∀ op ∈ l, op.id ≠ id) :
    eraseOp id (l.map (Operation.replaceUsesOfWith old new)) =
      l.map (Operation.replaceUsesOfWith old new) := by
  unfold eraseOp
  rw [List.filter_eq_self]
  intro op hop
  obtain ⟨o, ho, rfl⟩ := List.mem_map.1 hop
  simpa [replaceUsesOfWith_id] using hl o ho

/-- Identities of a well-formed body around one of its operations. -/
theorem wellFormed_split_ids {func : FuncBody} (hwf : func.WellFormed)
    {pre post : List Operation} {qop : Operation} (hops : func.ops = pre ++ qop :: post) :
    (∀ op ∈ pre, op.id ≠ qop.id) ∧ (∀ op ∈ post, op.id ≠ qop.id) ∧
      qop.id < func.nextId := by
  obtain ⟨hnd, hlt, _⟩ := hwf
  rw [hops] at hnd hlt
  simp only [List.map_append, List.map_cons] at hnd
  have h1 := List.nodup_append.1 hnd
  have h2 := List.nodup_cons.1 h1.2.1
  refine ⟨?_, ?_, hlt qop (by simp)⟩
  · intro op hop heq
    exact h1.2.2 (List.mem_map.2 ⟨op, hop, rfl⟩) (by rw [heq]; exact List.mem_cons_self _ _)
  · intro op hop heq
    exact h2.1 (by rw [← heq]; exact List.mem_map.2 ⟨op, hop, rfl⟩)

/-- The body after a successful rewrite of the cast `qop` standing between
`pre` and `post`: the new constant and the storage cast stand where the cast
stood, and every other operation has the result of the cast replaced. -/
theorem rewrite_shape {fw : Framework} {q : QuantizeCastOp} {rw rw' : PatternRewriter}
    {qop : Operation} {pre post : List Operation}
    (hwf : rw.func.WellFormed) (hip : rw.insertionPoint = q.id)
    (hops : rw.func.ops = pre ++ qop :: post)
    (hq : QuantizeCastOp.dynCast qop = some q)
    (h : matchAndRewrite fw q rw = .ok (.success, rw')) :
    ∃ value qty nv nty definingOp,
      matchPattern rw.func q.getArg m_Constant = some value ∧
      fw.getQuantizedElementType q.getResult.type = some qty ∧
      fw.quantizeAttr value qty = some (nv, nty) ∧
      getDefiningOp rw.func q.getArg = some definingOp ∧
      rw'.func.ops =
        pre.map (Operation.replaceUsesOfWith (.opResult q.id 0) (storageCastResult rw.func q))
          ++ newConstOpOf fw rw.func q definingOp nv nty
          :: storageCastOpOf rw.func q nty
          :: post.map
              (Operation.replaceUsesOfWith (.opResult q.id 0) (storageCastResult rw.func q)) ∧
      rw'.func.nextId = rw.func.nextId + 2 ∧
      rw'.insertionPoint = rw.insertionPoint := by
  obtain ⟨value, qty, sty, nv, nty, definingOp, hv, hqt, -, -, -, hn, hd, hrw⟩ :=
    matchAndRewrite_success_inv h
  obtain ⟨-, -, -, hid, -⟩ := dynCast_some hq
  obtain ⟨hpre, hpost, hlt⟩ := wellFormed_split_ids hwf hops
  refine ⟨value, qty, nv, nty, definingOp, hv, hqt, hn, hd, ?_, ?_, ?_⟩
  · subst hrw
    have hne : rw.func.nextId ≠ qop.id := Nat.ne_of_gt hlt
    have hne1 : rw.func.nextId + 1 ≠ qop.id := Nat.ne_of_gt (Nat.lt_succ_of_lt hlt)
    have hpre' : ∀ op ∈ pre ++ [newConstOpOf fw rw.func q definingOp nv nty],
        op.id ≠ qop.id := by
      intro op hop
      rcases List.mem_append.1 hop with hop | hop
      · exact hpre op hop
      · simp only [List.mem_singleton] at hop
        subst hop
        exact hne
    have e1 : insertBefore qop.id (newConstOpOf fw rw.func q definingOp nv nty)
        (pre ++ qop :: post) =
        pre ++ newConstOpOf fw rw.func q definingOp nv nty :: qop :: post :=
      insertBefore_split _ _ _ _ hpre
    have e2 : insertBefore qop.id (storageCastOpOf rw.func q nty)
        ((pre ++ [newConstOpOf fw rw.func q definingOp nv nty]) ++ qop :: post) =
        (pre ++ [newConstOpOf fw rw.func q definingOp nv nty]) ++
          storageCastOpOf rw.func q nty :: qop :: post :=
      insertBefore_split _ _ _ _ hpre'
    simp only [List.append_assoc, List.singleton_append] at e2
    have e1' : insertBefore qop.id
        { id := rw.func.nextId, name := .ConstantOp, operands := [],
          resultTypes := [nty], value := some nv,
          loc := fw.getFusedLoc [definingOp.loc, q.getLoc] }
        (pre ++ qop :: post) =
        pre ++ newConstOpOf fw rw.func q definingOp nv nty :: qop :: post := e1
    have e2' : insertBefore qop.id
        { id := rw.func.nextId + 1, name := .StorageCastOp,
          operands := [⟨.opResult rw.func.nextId 0, nty⟩],
          resultTypes := [q.getType], value := none, loc := q.getLoc }
        (pre ++ newConstOpOf fw rw.func q definingOp nv nty :: qop :: post) =
        pre ++ newConstOpOf fw rw.func q definingOp nv nty ::
          storageCastOpOf rw.func q nty :: qop :: post := e2
    simp only [PatternRewriter.replaceOpWithNewOp, PatternRewriter.create,
      PatternRewriter.replaceOp, Operation.result, hip, hid, hops, e1', e2',
      List.map_append, List.map_cons]
    have hc : (newConstOpOf fw rw.func q definingOp nv nty).replaceUsesOfWith
        (.opResult qop.id 0) ⟨.opResult (rw.func.nextId + 1) 0, q.getType⟩ =
        newConstOpOf fw rw.func q definingOp nv nty := by
      simp [Operation.replaceUsesOfWith, newConstOpOf, replaceUses]
    have hs : (storageCastOpOf rw.func q nty).replaceUsesOfWith
        (.opResult qop.id 0) ⟨.opResult (rw.func.nextId + 1) 0, q.getType⟩ =
        storageCastOpOf rw.func q nty := by
      simp [Operation.replaceUsesOfWith, storageCastOpOf, replaceUses, hne]
    rw [hc, hs]
    unfold eraseOp
    rw [List.filter_append, List.filter_cons, List.filter_cons, List.filter_cons]
    have f1 := eraseOp_map_of_ne (.opResult qop.id 0)
      ⟨.opResult (rw.func.nextId + 1) 0, q.getType⟩ qop.id pre hpre
    have f2 := eraseOp_map_of_ne (.opResult qop.id 0)
      ⟨.opResult (rw.func.nextId + 1) 0, q.getType⟩ qop.id post hpost
    unfold eraseOp at f1 f2
    rw [f1, f2]
    simp [newConstOpOf, storageCastOpOf, storageCastResult, hne, hne1,
      replaceUsesOfWith_id]
  · subst hrw
    simp [PatternRewriter.replaceOpWithNewOp, PatternRewriter.create,
      PatternRewriter.replaceOp]
  · subst hrw
    simp [PatternRewriter.replaceOpWithNewOp, PatternRewriter.create,
      PatternRewriter.replaceOp]

theorem matchPattern_some {func : FuncBody} {v : Value}
    {pattern : Operation → Option Attribute} {a : Attribute}
    (h : matchPattern func v pattern = some a) :
    ∃ op, getDefiningOp func v = some op ∧ pattern op = some a := by
  unfold matchPattern at h
  split at h
  · rename_i op hop
    exact ⟨op, hop, h⟩
  · simp at h

theorem matchPattern_of_definingOp {func : FuncBody} {v : Value}
    {pattern : Operation → Option Attribute} {op : Operation}
    (h : getDefiningOp func v = some op) : matchPattern func v pattern = pattern op := by
  simp [matchPattern, h]

theorem matchPattern_of_no_definingOp {func : FuncBody} {v : Value}
    {pattern : Operation → Option Attribute}
    (h : getDefiningOp func v = none) : matchPattern func v pattern = none := by
  simp [matchPattern, h]

theorem isa_supported_iff (value : Attribute) :
    value.isa [.FloatAttr, .DenseElementsAttr, .SparseElementsAttr] = true ↔
      (value.kind = .FloatAttr ∨ value.kind = .DenseElementsAttr ∨
        value.kind = .SparseElementsAttr) := by
  cases value with
  | mk kind handle => cases kind <;> simp [Attribute.isa]

/-- When every check passes, the rewrite is performed. -/
theorem matchAndRewrite_of_checks {fw : Framework} {q : QuantizeCastOp}
    {rw : PatternRewriter} {value : Attribute} {qty : QuantizedType} {sty : Ty}
    {nv : Attribute} {nty : Ty}
    (hv : matchPattern rw.func q.getArg m_Constant = some value)
    (hq : fw.getQuantizedElementType q.getResult.type = some qty)
    (hs : fw.castToStorageType q.getResult.type = some sty)
    (hc : fw.isCompatibleExpressedType qty q.getArg.type = true)
    (hk : value.isa [.FloatAttr, .DenseElementsAttr, .SparseElementsAttr] = true)
    (hn : fw.quantizeAttr value qty = some (nv, nty)) :
    ∃ rw', matchAndRewrite fw q rw = .ok (.success, rw') := by
  obtain ⟨op, hop, -⟩ := matchPattern_some hv
  unfold matchAndRewrite
  simp only [hv, hq, hs, hc, hk, hn, hop]
  exact ⟨_, rfl⟩

/-- The result of `matchAndRewrite` is either a success or a failure that
returns the rewriter as it was. -/
theorem matchAndRewrite_cases (fw : Framework) (q : QuantizeCastOp) (rw : PatternRewriter) :
    (∃ rw', matchAndRewrite fw q rw = .ok (.success, rw')) ∨
      matchAndRewrite fw q rw = .ok (.failure, rw) := by
  unfold matchAndRewrite
  split
  · exact Or.inr rfl
  · rename_i value hv
    obtain ⟨op, hop, -⟩ := matchPattern_some hv
    simp only
    split
    · exact Or.inr rfl
    · split
      · exact Or.inr rfl
      · split
        · exact Or.inr rfl
        · split
          · exact Or.inr rfl
          · split
            · exact Or.inr rfl
            · simp only [hop]
              exact Or.inl ⟨_, rfl⟩

/-- C1: `matchAndRewrite` returns success exactly when the operand matches a
constant with a payload, the result type has a quantized element type,
`castToStorageType` of the result type is non-null, the expressed type is
compatible with the operand type, the payload is a float, dense-elements or
sparse-elements attribute, and `quantizeAttr` returns a non-null attribute; it
returns failure, with the rewriter as it was, exactly when one of them does not
hold; and a success has performed the rewrite: the returned state is the one
obtained by creating the constant from the result of `quantizeAttr` and
replacing the cast by a storage cast of it. -/
theorem matchAndRewrite_success_iff (fw : Framework) (q : QuantizeCastOp)
    (rw : PatternRewriter) :
    ((∃ rw', matchAndRewrite fw q rw = .ok (.success, rw')) ↔
      ∃ value, matchPattern rw.func q.getArg m_Constant = some value ∧
        ∃ qty, fw.getQuantizedElementType q.getResult.type = some qty ∧
          fw.castToStorageType q.getResult.type ≠ none ∧
          fw.isCompatibleExpressedType qty q.getArg.type = true ∧
          (value.kind = .FloatAttr ∨ value.kind = .DenseElementsAttr ∨
            value.kind = .SparseElementsAttr) ∧
          fw.quantizeAttr value qty ≠ none) ∧
    (matchAndRewrite fw q rw = .ok (.failure, rw) ↔
      ¬ ∃ value, matchPattern rw.func q.getArg m_Constant = some value ∧
        ∃ qty, fw.getQuantizedElementType q.getResult.type = some qty ∧
          fw.castToStorageType q.getResult.type ≠ none ∧
          fw.isCompatibleExpressedType qty q.getArg.type = true ∧
          (value.kind = .FloatAttr ∨ value.kind = .DenseElementsAttr ∨
            value.kind = .SparseElementsAttr) ∧
          fw.quantizeAttr value qty ≠ none) ∧
    (∀ rw', matchAndRewrite fw q rw = .ok (.success, rw') →
      ∃ value qty nv nty definingOp,
        matchPattern rw.func q.getArg m_Constant = some value ∧
        fw.getQuantizedElementType q.getResult.type = some qty ∧
        fw.quantizeAttr value qty = some (nv, nty) ∧
        getDefiningOp rw.func q.getArg = some definingOp ∧
        rw' = ((rw.create (fw.getFusedLoc [definingOp.loc, q.getLoc]) .ConstantOp []
                  nty (some nv)).2).replaceOpWithNewOp q.id q.getLoc .StorageCastOp
                  q.getType ⟨.opResult rw.func.nextId 0, nty⟩ ∧
        rw'.func.nextId = rw.func.nextId + 2) := by
  have hfwd : (∃ rw', matchAndRewrite fw q rw = .ok (.success, rw')) →
      ∃ value, matchPattern rw.func q.getArg m_Constant = some value ∧
        ∃ qty, fw.getQuantizedElementType q.getResult.type = some qty ∧
          fw.castToStorageType q.getResult.type ≠ none ∧
          fw.isCompatibleExpressedType qty q.getArg.type = true ∧
          (value.kind = .FloatAttr ∨ value.kind = .DenseElementsAttr ∨
            value.kind = .SparseElementsAttr) ∧
          fw.quantizeAttr value qty ≠ none := by
    rintro ⟨rw', h⟩
    obtain ⟨value, qty, sty, nv, nty, definingOp, hv, hq, hs, hc, hk, hn, -, -⟩ :=
      matchAndRewrite_success_inv h
    refine ⟨value, hv, qty, hq, ?_, hc, (isa_supported_iff value).1 hk, ?_⟩
    · simp [hs]
    · simp [hn]
  have hbwd : (∃ value, matchPattern rw.func q.getArg m_Constant = some value ∧
        ∃ qty, fw.getQuantizedElementType q.getResult.type = some qty ∧
          fw.castToStorageType q.getResult.type ≠ none ∧
          fw.isCompatibleExpressedType qty q.getArg.type = true ∧
          (value.kind = .FloatAttr ∨ value.kind = .DenseElementsAttr ∨
            value.kind = .SparseElementsAttr) ∧
          fw.quantizeAttr value qty ≠ none) →
      ∃ rw', matchAndRewrite fw q rw = .ok (.success, rw') := by
    rintro ⟨value, hv, qty, hq, hs, hc, hk, hn⟩
    obtain ⟨sty, hs'⟩ := Option.ne_none_iff_exists'.1 hs
    obtain ⟨⟨nv, nty⟩, hn'⟩ := Option.ne_none_iff_exists'.1 hn
    exact matchAndRewrite_of_checks hv hq hs' hc ((isa_supported_iff value).2 hk) hn'
  refine ⟨⟨hfwd, hbwd⟩, ⟨?_, ?_⟩, ?_⟩
  · intro hf hcond
    obtain ⟨rw', h'⟩ := hbwd hcond
    rw [hf] at h'
    simp at h'
  · intro hno
    rcases matchAndRewrite_cases fw q rw with h | h
    · exact absurd (hfwd h) hno
    · exact h
  · intro rw' h
    obtain ⟨value, qty, sty, nv, nty, definingOp, hv, hq, -, -, -, hn, hd, hrw⟩ :=
      matchAndRewrite_success_inv h
    refine ⟨value, qty, nv, nty, definingOp, hv, hq, hn, hd, hrw, ?_⟩
    rw [hrw]
    rfl

/-- C3: when the input of the cast is not defined by an operation that
`m_Constant` accepts (a block argument has no defining operation at all),
`matchAndRewrite` returns failure and the rewriter state is returned as it was:
nothing is created, replaced or erased. -/
theorem matchAndRewrite_nonconstant (fw : Framework) (q : QuantizeCastOp)
    (rw : PatternRewriter)
    (hnc : ∀ op, getDefiningOp rw.func q.getArg = some op → m_Constant op = none) :
    matchAndRewrite fw q rw = .ok (.failure, rw) := by
  have hm : matchPattern rw.func q.getArg m_Constant = none := by
    cases hd : getDefiningOp rw.func q.getArg with
    | none => exact matchPattern_of_no_definingOp hd
    | some op => rw [matchPattern_of_definingOp hd]; exact hnc op hd
  unfold matchAndRewrite
  simp only [hm]

theorem matchAndRewrite_nonconstant_witness :
    getDefiningOp argBody argCast.getArg = none ∧
      matchAndRewrite sampleFramework argCast ⟨argBody, 0⟩ = .ok (.failure, ⟨argBody, 0⟩) :=
  ⟨rfl, matchAndRewrite_nonconstant sampleFramework argCast ⟨argBody, 0⟩
    (fun op hop => by simp [getDefiningOp, argCast, QuantizeCastOp.getArg] at hop)⟩

/-- C4: when the result type of the cast has no quantized element type,
`matchAndRewrite` returns failure and the rewriter state is returned as it was,
whatever the input is. -/
theorem matchAndRewrite_unquantized (fw : Framework) (q : QuantizeCastOp)
    (rw : PatternRewriter)
    (hnq : fw.getQuantizedElementType q.getResult.type = none) :
    matchAndRewrite fw q rw = .ok (.failure, rw) := by
  unfold matchAndRewrite
  split
  · rfl
  · simp only [hnq]

theorem matchAndRewrite_unquantized_witness :
    matchPattern sampleBody floatCast.getArg m_Constant = some ⟨.DenseElementsAttr, 7⟩ ∧
      matchAndRewrite sampleFramework floatCast ⟨sampleBody, 1⟩ =
        .ok (.failure, ⟨sampleBody, 1⟩) :=
  ⟨rfl, matchAndRewrite_unquantized sampleFramework floatCast ⟨sampleBody, 1⟩ rfl⟩

/-- C9: a successful `m_Constant` match on the operand implies that the operand
is the result of an operation present in the body, not a block argument, so
`getDefiningOp()` is non-null where the fused location is built: for every
input `matchAndRewrite` returns normally. -/
theorem matchAndRewrite_definingOp_nonnull (fw : Framework) (q : QuantizeCastOp)
    (rw : PatternRewriter) :
    (∀ value, matchPattern rw.func q.getArg m_Constant = some value →
      ∃ op owner index, getDefiningOp rw.func q.getArg = some op ∧
        q.getArg.source = .opResult owner index ∧ op.id = owner) ∧
    (∃ r, matchAndRewrite fw q rw = .ok r) := by
  constructor
  · intro value hv
    obtain ⟨op, hop, -⟩ := matchPattern_some hv
    refine ⟨op, ?_⟩
    unfold getDefiningOp at hop
    split at hop
    · simp at hop
    · rename_i owner index hsrc
      refine ⟨owner, index, ?_, hsrc, ?_⟩
      · unfold getDefiningOp
        simp only [hsrc, hop]
      · have := List.find?_some hop
        simpa using this
  · rcases matchAndRewrite_cases fw q rw with ⟨rw', h⟩ | h
    · exact ⟨_, h⟩
    · exact ⟨_, h⟩

theorem matchAndRewrite_definingOp_nonnull_witness :
    ∃ op owner index, getDefiningOp sampleBody sampleCast.getArg = some op ∧
      sampleCast.getArg.source = .opResult owner index ∧ op.id = owner :=
  (matchAndRewrite_definingOp_nonnull sampleFramework sampleCast ⟨sampleBody, 1⟩).1
    ⟨.DenseElementsAttr, 7⟩ rfl

/-- C6: `runOnOperation` never signals pass failure, whatever the rewrite
driver returns; and when `quantizeAttr` returns null for the matched payload,
`matchAndRewrite` reports a plain failure and returns the rewriter state as it
was. -/
theorem runOnOperation_never_fails (fw : Framework)
    (applyPatternsAndFoldGreedily : GreedyDriver) (pass : ConvertConstPass)
    (q : QuantizeCastOp) (rw : PatternRewriter) :
    (runOnOperation fw applyPatternsAndFoldGreedily pass).passFailed = pass.passFailed ∧
    (runOnOperation fw applyPatternsAndFoldGreedily pass).func =
      (applyPatternsAndFoldGreedily pass.func [QuantizedConstRewrite fw]).2 ∧
    (∀ value qty, matchPattern rw.func q.getArg m_Constant = some value →
      fw.getQuantizedElementType q.getResult.type = some qty →
      fw.quantizeAttr value qty = none →
      matchAndRewrite fw q rw = .ok (.failure, rw)) := by
  refine ⟨rfl, rfl, ?_⟩
  intro value qty hv hq hn
  unfold matchAndRewrite
  simp only [hv, hq, hn]
  split
  · rfl
  · split
    · rfl
    · split <;> rfl

theorem runOnOperation_never_fails_witness :
    (runOnOperation sampleFramework idleDriver ⟨sparseBody, false⟩).passFailed = false ∧
      matchAndRewrite sampleFramework sampleCast ⟨sparseBody, 1⟩ =
        .ok (.failure, ⟨sparseBody, 1⟩) :=
  ⟨(runOnOperation_never_fails sampleFramework idleDriver ⟨sparseBody, false⟩ sampleCast
      ⟨sparseBody, 1⟩).1,
   (runOnOperation_never_fails sampleFramework idleDriver ⟨sparseBody, false⟩ sampleCast
      ⟨sparseBody, 1⟩).2.2 ⟨.SparseElementsAttr, 7⟩ ⟨0⟩ rfl rfl rfl⟩

theorem ownerBelow_mono {bound bound' : OpId} (hle : bound ≤ bound') {src : ValueSource}
    (h : src.ownerBelow bound = true) : src.ownerBelow bound' = true := by
  cases src with
  | opResult owner index =>
    simp only [ValueSource.ownerBelow, decide_eq_true_eq] at h ⊢
    exact Nat.lt_of_lt_of_le h hle
  | blockArgument index => rfl

theorem replaceUsesOfWith_operand {old : ValueSource} {new : Value} {op : Operation}
    {v : Value} (hv : v ∈ (op.replaceUsesOfWith old new).operands) :
    v = new ∨ (v ∈ op.operands ∧ v.source ≠ old) := by
  simp only [Operation.replaceUsesOfWith, replaceUses, List.mem_map] at hv
  obtain ⟨w, hw, rfl⟩ := hv
  by_cases hsrc : w.source = old
  · simp [hsrc]
  · simp [hsrc, hw]

/-- A successful rewrite keeps the body well formed. -/
theorem rewrite_wellFormed {fw : Framework} {q : QuantizeCastOp} {rw rw' : PatternRewriter}
    {qop : Operation}
    (hwf : rw.func.WellFormed) (hip : rw.insertionPoint = q.id)
    (hmem : qop ∈ rw.func.ops) (hq : QuantizeCastOp.dynCast qop = some q)
    (h : matchAndRewrite fw q rw = .ok (.success, rw')) : rw'.func.WellFormed := by
  obtain ⟨pre, post, hops⟩ := List.append_of_mem hmem
  obtain ⟨value, qty, nv, nty, definingOp, -, -, -, -, hshape, hnext, -⟩ :=
    rewrite_shape hwf hip hops hq h
  obtain ⟨hnd, hlt, hown⟩ := hwf
  rw [hops] at hnd hlt hown
  have hmapid : ∀ l : List Operation,
      (l.map (Operation.replaceUsesOfWith (.opResult q.id 0)
        (storageCastResult rw.func q))).map (fun op => op.id) = l.map (fun op => op.id) := by
    intro l
    simp [List.map_map, Function.comp_def, replaceUsesOfWith_id]
  refine ⟨?_, ?_, ?_⟩
  · rw [hshape]
    simp only [List.map_append, List.map_cons, hmapid]
    simp only [List.map_append, List.map_cons] at hnd
    have hsub : ((List.map (fun op => op.id) pre) ++
        (List.map (fun op => op.id) post)).Nodup := by
      have := List.nodup_append.1 hnd
      refine List.nodup_append.2 ⟨this.1, (List.nodup_cons.1 this.2.1).2, ?_⟩
      intro a ha hb
      exact this.2.2 ha (List.mem_cons_of_mem _ hb)
    have hfresh : ∀ i ∈ (List.map (fun op => op.id) pre) ++
        (List.map (fun op => op.id) post), i < rw.func.nextId := by
      intro i hi
      rcases List.mem_append.1 hi with hi | hi
      · obtain ⟨o, ho, rfl⟩ := List.mem_map.1 hi
        exact hlt o (by simp [ho])
      · obtain ⟨o, ho, rfl⟩ := List.mem_map.1 hi
        exact hlt o (by simp [ho])
    have hsub' := List.nodup_append.1 hsub
    refine List.nodup_append.2 ⟨hsub'.1, ?_, ?_⟩
    · refine List.nodup_cons.2 ⟨?_, List.nodup_cons.2 ⟨?_, hsub'.2.1⟩⟩
      · simp only [newConstOpOf, storageCastOpOf, List.mem_cons]
        rintro (h1 | h1)
        · exact absurd h1 (Nat.ne_of_lt (Nat.lt_succ_self _))
        · exact absurd (hfresh _ (List.mem_append_right _ h1)) (Nat.lt_irrefl _)
      · intro h1
        have := hfresh _ (List.mem_append_right _ h1)
        simp only [storageCastOpOf] at this
        exact absurd this (Nat.not_lt.2 (Nat.le_succ _))
    · intro a ha hb
      have ha' := hfresh a (List.mem_append_left _ ha)
      simp only [newConstOpOf, storageCastOpOf, List.mem_cons] at hb
      rcases hb with hb | hb | hb
      · subst hb; exact absurd ha' (Nat.lt_irrefl _)
      · subst hb; exact absurd ha' (Nat.not_lt.2 (Nat.le_succ _))
      · exact hsub'.2.2 ha hb
  · intro op hop
    rw [hshape] at hop
    rw [hnext]
    simp only [List.mem_append, List.mem_cons, List.mem_map] at hop
    rcases hop with ⟨o, ho, rfl⟩ | rfl | rfl | ⟨o, ho, rfl⟩
    · exact Nat.lt_of_lt_of_le (hlt o (by simp [ho])) (Nat.le_add_right _ _)
    · exact Nat.lt_add_of_pos_right (by decide)
    · exact Nat.lt_succ_self _
    · exact Nat.lt_of_lt_of_le (hlt o (by simp [ho])) (Nat.le_add_right _ _)
  · intro op hop v hv
    rw [hshape] at hop
    rw [hnext]
    have hold : ∀ o ∈ pre ++ qop :: post,
        ∀ w ∈ (o.replaceUsesOfWith (.opResult q.id 0) (storageCastResult rw.func q)).operands,
        w.source.ownerBelow (rw.func.nextId + 2) = true := by
      intro o ho w hw
      rcases replaceUsesOfWith_operand hw with rfl | ⟨hw', -⟩
      · simp [storageCastResult, ValueSource.ownerBelow]
      · exact ownerBelow_mono (Nat.le_add_right _ _) (hown o ho w hw')
    simp only [List.mem_append, List.mem_cons, List.mem_map] at hop
    rcases hop with ⟨o, ho, rfl⟩ | rfl | rfl | ⟨o, ho, rfl⟩
    · exact hold o (by simp [ho]) v hv
    · simp [newConstOpOf] at hv
    · simp only [storageCastOpOf, List.mem_singleton] at hv
      subst hv
      simp [ValueSource.ownerBelow]
    · exact hold o (by simp [ho]) v hv

theorem find_append_of_ne (l1 l2 : List Operation) (i : OpId)
    (h : ∀ op ∈ l1, op.id ≠ i) :
    (l1 ++ l2).find? (fun op => op.id == i) = l2.find? (fun op => op.id == i) := by
  induction l1 with
  | nil => rfl
  | cons a l1 ih =>
    have ha : a.id ≠ i := h a (List.mem_cons_self _ _)
    simp only [List.cons_append, List.find?_cons]
    have : (a.id == i) = false := by simpa using ha
    rw [this]
    exact ih (fun op hop => h op (List.mem_cons_of_mem _ hop))

theorem find_none_of_ne (l : List Operation) (i : OpId) (h : ∀ op ∈ l, op.id ≠ i) :
    l.find? (fun op => op.id == i) = none := by
  rw [List.find?_eq_none]
  intro op hop
  simpa using h op hop

theorem mem_map_replaceUses_id {old : ValueSource} {new : Value} {l : List Operation}
    {op : Operation} (hop : op ∈ l.map (Operation.replaceUsesOfWith old new)) :
    ∃ o ∈ l, o.id = op.id := by
  obtain ⟨o, ho, rfl⟩ := List.mem_map.1 hop
  exact ⟨o, ho, rfl⟩

/-- C2: after a successful rewrite of a cast of a well-formed body, the body
holds a new `arith` constant whose value and type are exactly the attribute and
the type `quantizeAttr` returned for the matched payload, and a storage cast
whose only operand is the result of that constant and whose result type is the
result type of the cast; the two new operations stand where the cast stood,
and the cast is gone. -/
theorem fold_yields_quantized_constant (fw : Framework) (q : QuantizeCastOp)
    (rw rw' : PatternRewriter) (qop : Operation)
    (hwf : rw.func.WellFormed) (hip : rw.insertionPoint = q.id)
    (hmem : qop ∈ rw.func.ops) (hq : QuantizeCastOp.dynCast qop = some q)
    (h : matchAndRewrite fw q rw = .ok (.success, rw')) :
    ∃ value qty nv nty,
      matchPattern rw.func q.getArg m_Constant = some value ∧
      fw.getQuantizedElementType q.getResult.type = some qty ∧
      fw.quantizeAttr value qty = some (nv, nty) ∧
      (∃ c, rw'.func.lookup rw.func.nextId = some c ∧ c.name = .ConstantOp ∧
        c.value = some nv ∧ c.resultTypes = [nty] ∧ c.operands = []) ∧
      (∃ sc, rw'.func.lookup (rw.func.nextId + 1) = some sc ∧ sc.name = .StorageCastOp ∧
        sc.operands = [⟨.opResult rw.func.nextId 0, nty⟩] ∧
        sc.resultTypes = [q.getType]) ∧
      rw'.func.lookup q.id = none ∧
      (∃ pre post, rw.func.ops = pre ++ qop :: post ∧
        rw'.func.ops.map (fun op => op.id) =
          pre.map (fun op => op.id) ++ rw.func.nextId :: (rw.func.nextId + 1) ::
            post.map (fun op => op.id)) := by
  obtain ⟨pre, post, hops⟩ := List.append_of_mem hmem
  obtain ⟨value, qty, nv, nty, definingOp, hv, hqt, hn, hd, hshape, hnext, -⟩ :=
    rewrite_shape hwf hip hops hq h
  obtain ⟨hpre, hpost, hlt⟩ := wellFormed_split_ids hwf hops
  obtain ⟨-, -, -, hid, -⟩ := dynCast_some hq
  have hbound : ∀ op ∈ rw.func.ops, op.id < rw.func.nextId := hwf.2.1
  have hpreB : ∀ op ∈ pre, op.id < rw.func.nextId := fun op hop =>
    hbound op (by rw [hops]; simp [hop])
  have hpostB : ∀ op ∈ post, op.id < rw.func.nextId := fun op hop =>
    hbound op (by rw [hops]; simp [hop])
  refine ⟨value, qty, nv, nty, hv, hqt, hn, ?_, ?_, ?_, ?_⟩
  · refine ⟨newConstOpOf fw rw.func q definingOp nv nty, ?_, rfl, rfl, rfl, rfl⟩
    unfold FuncBody.lookup
    rw [hshape, find_append_of_ne]
    · simp [List.find?_cons, newConstOpOf]
    · intro op hop
      obtain ⟨o, ho, hoid⟩ := mem_map_replaceUses_id hop
      rw [← hoid]
      exact Nat.ne_of_lt (hpreB o ho)
  · refine ⟨storageCastOpOf rw.func q nty, ?_, rfl, rfl, rfl⟩
    unfold FuncBody.lookup
    rw [hshape, find_append_of_ne]
    · simp [List.find?_cons, newConstOpOf, storageCastOpOf]
    · intro op hop
      obtain ⟨o, ho, hoid⟩ := mem_map_replaceUses_id hop
      rw [← hoid]
      exact Nat.ne_of_lt (Nat.lt_succ_of_lt (hpreB o ho))
  · unfold FuncBody.lookup
    rw [hshape]
    apply find_none_of_ne
    intro op hop
    rw [hid]
    simp only [List.mem_append, List.mem_cons] at hop
    rcases hop with hop | rfl | rfl | hop
    · obtain ⟨o, ho, hoid⟩ := mem_map_replaceUses_id hop
      rw [← hoid]
      exact hpre o ho
    · exact Nat.ne_of_gt hlt
    · exact Nat.ne_of_gt (Nat.lt_succ_of_lt hlt)
    · obtain ⟨o, ho, hoid⟩ := mem_map_replaceUses_id hop
      rw [← hoid]
      exact hpost o ho
  · refine ⟨pre, post, hops, ?_⟩
    rw [hshape]
    simp [List.map_map, Function.comp_def, replaceUsesOfWith_id, newConstOpOf,
      storageCastOpOf]

theorem fold_yields_quantized_constant_witness :
    ∃ value qty nv nty,
      matchPattern sampleBody sampleCast.getArg m_Constant = some value ∧
      sampleFramework.getQuantizedElementType sampleCast.getResult.type = some qty ∧
      sampleFramework.quantizeAttr value qty = some (nv, nty) ∧
      (∃ c, sampleFolded.lookup 3 = some c ∧ c.name = .ConstantOp ∧
        c.value = some nv ∧ c.resultTypes = [nty] ∧ c.operands = []) ∧
      (∃ sc, sampleFolded.lookup 4 = some sc ∧ sc.name = .StorageCastOp ∧
        sc.operands = [⟨.opResult 3 0, nty⟩] ∧ sc.resultTypes = [sampleCast.getType]) ∧
      sampleFolded.lookup 1 = none ∧
      (∃ pre post, sampleBody.ops = pre ++
          { id := 1, name := .QuantizeCastOp, operands := [⟨.opResult 0 0, ⟨1⟩⟩],
            resultTypes := [⟨3⟩], value := none, loc := ⟨11⟩ } :: post ∧
        sampleFolded.ops.map (fun op => op.id) =
          pre.map (fun op => op.id) ++ 3 :: 4 :: post.map (fun op => op.id)) :=
  fold_yields_quantized_constant sampleFramework sampleCast ⟨sampleBody, 1⟩
    ⟨sampleFolded, 1⟩
    { id := 1, name := .QuantizeCastOp, operands := [⟨.opResult 0 0, ⟨1⟩⟩],
      resultTypes := [⟨3⟩], value := none, loc := ⟨11⟩ }
    (by decide) rfl (by decide) rfl rfl

/-- C7: after a successful rewrite of a cast of a well-formed body, the new
constant carries the location `getFusedLoc` builds from exactly two locations,
first that of the operation defining the original constant, then that of the
cast; every use of the result of the cast has become a use of the result of
the storage cast, no use of the result of the cast is left, and the result of
the new constant is used by the storage cast only. -/
theorem fused_location_and_uses (fw : Framework) (q : QuantizeCastOp)
    (rw rw' : PatternRewriter) (qop : Operation)
    (hwf : rw.func.WellFormed) (hip : rw.insertionPoint = q.id)
    (hmem : qop ∈ rw.func.ops) (hq : QuantizeCastOp.dynCast qop = some q)
    (h : matchAndRewrite fw q rw = .ok (.success, rw')) :
    ∃ definingOp c,
      getDefiningOp rw.func q.getArg = some definingOp ∧
      rw'.func.lookup rw.func.nextId = some c ∧ c.name = .ConstantOp ∧
      c.loc = fw.getFusedLoc [definingOp.loc, q.getLoc] ∧
      (∀ op ∈ rw.func.ops, op ≠ qop →
        op.replaceUsesOfWith q.getResult.source ⟨.opResult (rw.func.nextId + 1) 0, q.getType⟩
          ∈ rw'.func.ops) ∧
      (∀ op ∈ rw'.func.ops, ∀ v ∈ op.operands, v.source ≠ q.getResult.source) ∧
      (∀ op ∈ rw'.func.ops, ∀ v ∈ op.operands,
        v.source = .opResult rw.func.nextId 0 → op.id = rw.func.nextId + 1) := by
  obtain ⟨pre, post, hops⟩ := List.append_of_mem hmem
  obtain ⟨value, qty, nv, nty, definingOp, hv, hqt, hn, hd, hshape, hnext, -⟩ :=
    rewrite_shape hwf hip hops hq h
  obtain ⟨hpre, hpost, hlt⟩ := wellFormed_split_ids hwf hops
  obtain ⟨-, -, -, hid, -⟩ := dynCast_some hq
  have hbound : ∀ op ∈ rw.func.ops, op.id < rw.func.nextId := hwf.2.1
  have hown := hwf.2.2
  have hpreB : ∀ op ∈ pre, op.id < rw.func.nextId := fun op hop =>
    hbound op (by rw [hops]; simp [hop])
  have hres : q.getResult.source = .opResult q.id 0 := rfl
  have hsc : (⟨.opResult (rw.func.nextId + 1) 0, q.getType⟩ : Value) =
      storageCastResult rw.func q := rfl
  refine ⟨definingOp, newConstOpOf fw rw.func q definingOp nv nty, hd, ?_, rfl, rfl,
    ?_, ?_, ?_⟩
  · unfold FuncBody.lookup
    rw [hshape, find_append_of_ne]
    · simp [List.find?_cons, newConstOpOf]
    · intro op hop
      obtain ⟨o, ho, hoid⟩ := mem_map_replaceUses_id hop
      rw [← hoid]
      exact Nat.ne_of_lt (hpreB o ho)
  · intro op hop hne
    rw [hshape, hres, hsc]
    rw [hops] at hop
    simp only [List.mem_append, List.mem_cons] at hop
    rcases hop with hop | hop | hop
    · exact List.mem_append_left _ (List.mem_map_of_mem _ hop)
    · exact absurd hop hne
    · exact List.mem_append_right _
        (List.mem_cons_of_mem _ (List.mem_cons_of_mem _ (List.mem_map_of_mem _ hop)))
  · intro op hop v hv
    rw [hres]
    have hold : ∀ o : Operation, ∀ w ∈ (o.replaceUsesOfWith (.opResult q.id 0)
        (storageCastResult rw.func q)).operands, w.source ≠ .opResult q.id 0 := by
      intro o w hw
      rcases replaceUsesOfWith_operand hw with rfl | ⟨-, hw'⟩
      · simp only [storageCastResult, ne_eq, ValueSource.opResult.injEq, and_true]
        rw [hid]
        exact Nat.ne_of_gt (Nat.lt_succ_of_lt hlt)
      · exact hw'
    rw [hshape] at hop
    simp only [List.mem_append, List.mem_cons, List.mem_map] at hop
    rcases hop with ⟨o, -, rfl⟩ | rfl | rfl | ⟨o, -, rfl⟩
    · exact hold o v hv
    · simp [newConstOpOf] at hv
    · simp only [storageCastOpOf, List.mem_singleton] at hv
      subst hv
      simp only [ne_eq, ValueSource.opResult.injEq, and_true]
      rw [hid]
      exact Nat.ne_of_gt hlt
    · exact hold o v hv
  · intro op hop v hv hsrc
    have hold : ∀ o ∈ rw.func.ops, ∀ w ∈ (o.replaceUsesOfWith (.opResult q.id 0)
        (storageCastResult rw.func q)).operands,
        w.source ≠ .opResult rw.func.nextId 0 := by
      intro o ho w hw
      rcases replaceUsesOfWith_operand hw with rfl | ⟨hw', -⟩
      · simp [storageCastResult]
      · intro hw''
        have := hown o ho w hw'
        rw [hw''] at this
        simp [ValueSource.ownerBelow] at this
    rw [hshape] at hop
    simp only [List.mem_append, List.mem_cons, List.mem_map] at hop
    rcases hop with ⟨o, ho, rfl⟩ | rfl | rfl | ⟨o, ho, rfl⟩
    · exact absurd hsrc (hold o (by rw [hops]; simp [ho]) v hv)
    · simp [newConstOpOf] at hv
    · rfl
    · exact absurd hsrc (hold o (by rw [hops]; simp [ho]) v hv)

theorem fused_location_and_uses_witness :
    ∃ definingOp c,
      getDefiningOp sampleBody sampleCast.getArg = some definingOp ∧
      sampleFolded.lookup 3 = some c ∧ c.name = .ConstantOp ∧
      c.loc = sampleFramework.getFusedLoc [definingOp.loc, sampleCast.getLoc] ∧
      (∀ op ∈ sampleBody.ops, op ≠
          { id := 1, name := .QuantizeCastOp, operands := [⟨.opResult 0 0, ⟨1⟩⟩],
            resultTypes := [⟨3⟩], value := none, loc := ⟨11⟩ } →
        op.replaceUsesOfWith sampleCast.getResult.source ⟨.opResult 4 0, sampleCast.getType⟩
          ∈ sampleFolded.ops) ∧
      (∀ op ∈ sampleFolded.ops, ∀ v ∈ op.operands,
        v.source ≠ sampleCast.getResult.source) ∧
      (∀ op ∈ sampleFolded.ops, ∀ v ∈ op.operands,
        v.source = .opResult 3 0 → op.id = 4) :=
  fused_location_and_uses sampleFramework sampleCast ⟨sampleBody, 1⟩ ⟨sampleFolded, 1⟩
    { id := 1, name := .QuantizeCastOp, operands := [⟨.opResult 0 0, ⟨1⟩⟩],
      resultTypes := [⟨3⟩], value := none, loc := ⟨11⟩ }
    (by decide) rfl (by decide) rfl rfl

theorem countP_map_replaceUses (old : ValueSource) (new : Value) (name : OpName)
    (l : List Operation) :
    (l.map (Operation.replaceUsesOfWith old new)).countP (fun op => op.name == name) =
      l.countP (fun op => op.name == name) := by
  induction l with
  | nil => rfl
  | cons a l ih =>
    simp only [List.map_cons, List.countP_cons, replaceUsesOfWith_name, ih]

/-- One successful rewrite: the body stays well formed, one cast disappears,
one constant and one storage cast appear. -/
theorem rewriteStep_counts {fw : Framework} {func func' : FuncBody}
    (hwf : func.WellFormed) (hstep : RewriteStep fw func func') :
    func'.WellFormed ∧
      func'.countOps .QuantizeCastOp + 1 = func.countOps .QuantizeCastOp ∧
      func'.countOps .ConstantOp = func.countOps .ConstantOp + 1 ∧
      func'.countOps .StorageCastOp = func.countOps .StorageCastOp + 1 := by
  obtain ⟨qop, hmem, q, hq, rw', h, rfl⟩ := hstep
  have hwf' : rw'.func.WellFormed :=
    @rewrite_wellFormed _ _ ⟨func, q.id⟩ _ _ hwf rfl hmem hq h
  obtain ⟨pre, post, hops⟩ := List.append_of_mem hmem
  have hops' : (⟨func, q.id⟩ : PatternRewriter).func.ops = pre ++ qop :: post := hops
  obtain ⟨value, qty, nv, nty, definingOp, -, -, -, -, hshape, -, -⟩ :=
    @rewrite_shape _ _ ⟨func, q.id⟩ _ _ _ _ hwf rfl hops' hq h
  obtain ⟨hname, -, -, -, -⟩ := dynCast_some hq
  refine ⟨hwf', ?_, ?_, ?_⟩
  · simp only [FuncBody.countOps, hshape, hops, List.countP_append, List.countP_cons,
      countP_map_replaceUses, hname, newConstOpOf, storageCastOpOf]
    simp
    omega
  · simp only [FuncBody.countOps, hshape, hops, List.countP_append, List.countP_cons,
      countP_map_replaceUses, hname, newConstOpOf, storageCastOpOf]
    simp
    omega
  · simp only [FuncBody.countOps, hshape, hops, List.countP_append, List.countP_cons,
      countP_map_replaceUses, hname, newConstOpOf, storageCastOpOf]
    simp
    omega

/-- C10: every successful application of `matchAndRewrite` removes exactly one
`QuantizeCastOp` from a well-formed body and adds one `arith` constant and one
storage cast; so after `n` successive rewrites the body has `n` casts fewer, and
no sequence of rewrites is longer than the number of casts the body started
with. -/
theorem rewrites_bounded_by_casts (fw : Framework) (n : Nat) (func func' : FuncBody)
    (hwf : func.WellFormed) (hsteps : RewriteSteps fw n func func') :
    func'.countOps .QuantizeCastOp + n = func.countOps .QuantizeCastOp ∧
      func'.countOps .ConstantOp = func.countOps .ConstantOp + n ∧
      func'.countOps .StorageCastOp = func.countOps .StorageCastOp + n ∧
      n ≤ func.countOps .QuantizeCastOp := by
  induction hsteps with
  | refl func => simp
  | step hstep _ ih =>
    obtain ⟨hwf', h1, h2, h3⟩ := rewriteStep_counts hwf hstep
    obtain ⟨i1, i2, i3, i4⟩ := ih hwf'
    refine ⟨?_, ?_, ?_, ?_⟩ <;> omega

theorem rewrites_bounded_by_casts_witness :
    sampleFolded.countOps .QuantizeCastOp + 1 = sampleBody.countOps .QuantizeCastOp ∧
      sampleFolded.countOps .ConstantOp = sampleBody.countOps .ConstantOp + 1 ∧
      sampleFolded.countOps .StorageCastOp = sampleBody.countOps .StorageCastOp + 1 ∧
      1 ≤ sampleBody.countOps .QuantizeCastOp :=
  rewrites_bounded_by_casts sampleFramework 1 sampleBody sampleFolded (by decide)
    (.step
      ⟨{ id := 1, name := .QuantizeCastOp, operands := [⟨.opResult 0 0, ⟨1⟩⟩],
         resultTypes := [⟨3⟩], value := none, loc := ⟨11⟩ }, by decide, sampleCast, rfl,
        ⟨sampleFolded, 1⟩, rfl, rfl⟩
      (.refl sampleFolded))

theorem lookup_mem {func : FuncBody} {i : OpId} {op : Operation}
    (h : func.lookup i = some op) : op ∈ func.ops ∧ op.id = i := by
  unfold FuncBody.lookup at h
  refine ⟨List.mem_of_find?_eq_some h, ?_⟩
  have := List.find?_some h
  simpa using this

theorem mem_eq_of_id_eq {l : List Operation} (hnd : (l.map (fun op => op.id)).Nodup)
    {a b : Operation} (ha : a ∈ l) (hb : b ∈ l) (hid : a.id = b.id) : a = b :=
  List.inj_on_of_nodup_map hnd ha hb hid

theorem lookup_of_mem {func : FuncBody} (hwf : func.WellFormed) {op : Operation}
    (hop : op ∈ func.ops) : func.lookup op.id = some op := by
  cases hl : func.lookup op.id with
  | none =>
    unfold FuncBody.lookup at hl
    rw [List.find?_eq_none] at hl
    have := hl op hop
    simp at this
  | some o =>
    obtain ⟨ho, hid⟩ := lookup_mem hl
    rw [mem_eq_of_id_eq hwf.1 ho hop hid]

/-- The operation defining the operand of a matched cast is not the cast. -/
theorem definingOp_ne_cast {func : FuncBody} (hwf : func.WellFormed) {qop d : Operation}
    {q : QuantizeCastOp} {value : Attribute}
    (hmem : qop ∈ func.ops) (hq : QuantizeCastOp.dynCast qop = some q)
    (hd : getDefiningOp func q.getArg = some d) (hm : m_Constant d = some value) :
    d ∈ func.ops ∧ d.id ≠ q.id ∧ d ≠ qop := by
  obtain ⟨hname, -, -, hid, -⟩ := dynCast_some hq
  have hdmem : d ∈ func.ops := by
    unfold getDefiningOp at hd
    split at hd
    · simp at hd
    · exact (lookup_mem hd).1
  have hne : d ≠ qop := by
    rintro rfl
    simp [m_Constant, hname, OpName.hasConstantLikeTrait] at hm
  refine ⟨hdmem, ?_, hne⟩
  intro h
  exact hne (mem_eq_of_id_eq hwf.1 hdmem hmem (h.trans hid))

theorem applyPatterns_single_success {fw : Framework} {op : Operation} {q : QuantizeCastOp}
    {rw rw' : PatternRewriter} (hq : QuantizeCastOp.dynCast op = some q)
    (h : matchAndRewrite fw q rw = .ok (.success, rw')) :
    applyPatterns [QuantizedConstRewrite fw] op rw = some rw' := by
  simp [applyPatterns, QuantizedConstRewrite, hq, h]

theorem applyPatterns_single_failure {fw : Framework} {op : Operation} {q : QuantizeCastOp}
    {rw : PatternRewriter} (hq : QuantizeCastOp.dynCast op = some q)
    (h : matchAndRewrite fw q rw = .ok (.failure, rw)) :
    applyPatterns [QuantizedConstRewrite fw] op rw = none := by
  simp [applyPatterns, QuantizedConstRewrite, hq, h]

theorem applyPatterns_single_not_cast {fw : Framework} {op : Operation}
    {rw : PatternRewriter} (hq : QuantizeCastOp.dynCast op = none) :
    applyPatterns [QuantizedConstRewrite fw] op rw = none := by
  simp [applyPatterns, QuantizedConstRewrite, hq]

/-- The driver's work-list item for a cast on which the pattern succeeds. -/
theorem visit_of_success {fw : Framework} {func : FuncBody} {qop : Operation}
    {q : QuantizeCastOp} {rw' : PatternRewriter} (hwf : func.WellFormed)
    (hmem : qop ∈ func.ops) (hq : QuantizeCastOp.dynCast qop = some q)
    (h : matchAndRewrite fw q ⟨func, q.id⟩ = .ok (.success, rw')) :
    visit [QuantizedConstRewrite fw] func q.id = (true, eraseIfUnused rw'.func q.getArg) := by
  obtain ⟨-, hoper, -, hid, -⟩ := dynCast_some hq
  have hl : func.lookup q.id = some qop := by rw [hid]; exact lookup_of_mem hwf hmem
  unfold visit
  simp only [hl, applyPatterns_single_success hq h, hoper, List.foldl_cons, List.foldl_nil]
  rfl

theorem isResultOf_iff {id : OpId} {src : ValueSource} :
    src.isResultOf id = true ↔ ∃ index, src = .opResult id index := by
  cases src with
  | opResult owner index => simp [ValueSource.isResultOf]
  | blockArgument index => simp [ValueSource.isResultOf]

/-- After a successful rewrite, the original constant is still used exactly
when an operation other than the cast used it before. -/
theorem hasUses_after_rewrite {fw : Framework} {func : FuncBody} {qop d : Operation}
    {q : QuantizeCastOp} {rw' : PatternRewriter} (hwf : func.WellFormed)
    (hmem : qop ∈ func.ops) (hq : QuantizeCastOp.dynCast qop = some q)
    (h : matchAndRewrite fw q ⟨func, q.id⟩ = .ok (.success, rw'))
    (hdmem : d ∈ func.ops) (hdne : d.id ≠ q.id) :
    rw'.func.hasUses d.id = true ↔
      ∃ op ∈ func.ops, op ≠ qop ∧ ∃ v ∈ op.operands, v.source.isResultOf d.id = true := by
  obtain ⟨pre, post, hops⟩ := List.append_of_mem hmem
  have hops' : (⟨func, q.id⟩ : PatternRewriter).func.ops = pre ++ qop :: post := hops
  obtain ⟨value, qty, nv, nty, definingOp, -, -, -, -, hshape, -, -⟩ :=
    @rewrite_shape _ _ ⟨func, q.id⟩ _ _ _ _ hwf rfl hops' hq h
  obtain ⟨hpre, hpost, hlt⟩ := wellFormed_split_ids hwf hops
  have hdlt : d.id < func.nextId := hwf.2.1 d hdmem
  have hkeep : ∀ o : Operation,
      (∃ v ∈ (o.replaceUsesOfWith (.opResult q.id 0)
        (storageCastResult (⟨func, q.id⟩ : PatternRewriter).func q)).operands,
          v.source.isResultOf d.id = true) ↔
      ∃ v ∈ o.operands, v.source.isResultOf d.id = true := by
    intro o
    constructor
    · rintro ⟨v, hv, hr⟩
      rcases replaceUsesOfWith_operand hv with rfl | ⟨hv', -⟩
      · simp only [storageCastResult, ValueSource.isResultOf, beq_iff_eq] at hr
        exact absurd hr (Nat.ne_of_gt (Nat.lt_succ_of_lt hdlt))
      · exact ⟨v, hv', hr⟩
    · rintro ⟨v, hv, hr⟩
      refine ⟨v, ?_, hr⟩
      obtain ⟨index, hsrc⟩ := isResultOf_iff.1 hr
      simp only [Operation.replaceUsesOfWith, replaceUses, List.mem_map]
      refine ⟨v, hv, ?_⟩
      have : v.source ≠ .opResult q.id 0 := by
        rw [hsrc]
        intro hh
        injection hh with h1 _
        exact hdne h1
      simp [this]
  unfold FuncBody.hasUses
  rw [hshape]
  simp only [List.any_eq_true, List.mem_append, List.mem_cons, List.mem_map]
  constructor
  · rintro ⟨op, hop, v, hv, hr⟩
    rcases hop with ⟨o, ho, rfl⟩ | rfl | rfl | ⟨o, ho, rfl⟩
    · obtain ⟨w, hw, hwr⟩ := (hkeep o).1 ⟨v, hv, hr⟩
      refine ⟨o, by rw [hops]; simp [ho], ?_, w, hw, hwr⟩
      rintro rfl
      exact hpre _ ho rfl
    · simp [newConstOpOf] at hv
    · simp only [storageCastOpOf, List.mem_singleton] at hv
      subst hv
      simp only [ValueSource.isResultOf, beq_iff_eq] at hr
      exact absurd hr (Nat.ne_of_gt hdlt)
    · obtain ⟨w, hw, hwr⟩ := (hkeep o).1 ⟨v, hv, hr⟩
      refine ⟨o, by rw [hops]; simp [ho], ?_, w, hw, hwr⟩
      rintro rfl
      exact hpost _ ho rfl
  · rintro ⟨op, hop, hne, v, hv, hr⟩
    obtain ⟨w, hw, hwr⟩ := (hkeep op).2 ⟨v, hv, hr⟩
    rw [hops] at hop
    simp only [List.mem_append, List.mem_cons] at hop
    rcases hop with hop | hop | hop
    · exact ⟨_, Or.inl ⟨op, hop, rfl⟩, w, hw, hwr⟩
    · exact absurd hop hne
    · exact ⟨_, Or.inr (Or.inr (Or.inr ⟨op, hop, rfl⟩)), w, hw, hwr⟩

theorem getDefiningOp_source {func : FuncBody} {v : Value} {d : Operation}
    (hd : getDefiningOp func v = some d) :
    d ∈ func.ops ∧ ∃ index, v.source = .opResult d.id index := by
  unfold getDefiningOp at hd
  split at hd
  · simp at hd
  · rename_i owner index hsrc
    obtain ⟨hmem, hid⟩ := lookup_mem hd
    exact ⟨hmem, index, by rw [hsrc, hid]⟩

theorem eraseIfUnused_of_source {func : FuncBody} {v : Value} {id : OpId} {index : Nat}
    (hsrc : v.source = .opResult id index) :
    eraseIfUnused func v =
      if func.hasUses id then func else { func with ops := eraseOp id func.ops } := by
  unfold eraseIfUnused
  simp only [hsrc]

theorem eraseIfUnused_ops_sub (func : FuncBody) (v : Value) :
    ∀ op ∈ (eraseIfUnused func v).ops, op ∈ func.ops := by
  intro op hop
  unfold eraseIfUnused at hop
  split at hop
  · split at hop
    · exact hop
    · exact (List.mem_filter.1 hop).1
  · exact hop

theorem eraseIfUnused_nextId (func : FuncBody) (v : Value) :
    (eraseIfUnused func v).nextId = func.nextId := by
  unfold eraseIfUnused
  split
  · split <;> rfl
  · rfl

theorem lookup_none_of_sub {func func' : FuncBody} {i : OpId}
    (hsub : ∀ op ∈ func'.ops, op ∈ func.ops) (h : func.lookup i = none) :
    func'.lookup i = none := by
  unfold FuncBody.lookup at h ⊢
  rw [List.find?_eq_none] at h ⊢
  intro op hop
  exact h op (hsub op hop)

/-- The cast is gone after a successful rewrite. -/
theorem lookup_cast_after_rewrite {fw : Framework} {func : FuncBody} {qop : Operation}
    {q : QuantizeCastOp} {rw' : PatternRewriter} (hwf : func.WellFormed)
    (hmem : qop ∈ func.ops) (hq : QuantizeCastOp.dynCast qop = some q)
    (h : matchAndRewrite fw q ⟨func, q.id⟩ = .ok (.success, rw')) :
    rw'.func.lookup q.id = none := by
  obtain ⟨pre, post, hops⟩ := List.append_of_mem hmem
  have hops' : (⟨func, q.id⟩ : PatternRewriter).func.ops = pre ++ qop :: post := hops
  obtain ⟨value, qty, nv, nty, definingOp, -, -, -, -, hshape, -, -⟩ :=
    @rewrite_shape _ _ ⟨func, q.id⟩ _ _ _ _ hwf rfl hops' hq h
  obtain ⟨hpre, hpost, hlt⟩ := wellFormed_split_ids hwf hops
  obtain ⟨-, -, -, hid, -⟩ := dynCast_some hq
  unfold FuncBody.lookup
  rw [hshape]
  apply find_none_of_ne
  intro op hop
  rw [hid]
  simp only [List.mem_append, List.mem_cons] at hop
  rcases hop with hop | rfl | rfl | hop
  · obtain ⟨o, ho, hoid⟩ := mem_map_replaceUses_id hop
    rw [← hoid]
    exact hpre o ho
  · exact Nat.ne_of_gt hlt
  · exact Nat.ne_of_gt (Nat.lt_succ_of_lt hlt)
  · obtain ⟨o, ho, hoid⟩ := mem_map_replaceUses_id hop
    rw [← hoid]
    exact hpost o ho

/-- Every operation other than the cast survives a successful rewrite, with
the uses of the result of the cast replaced. -/
theorem mem_after_rewrite {fw : Framework} {func : FuncBody} {qop : Operation}
    {q : QuantizeCastOp} {rw' : PatternRewriter} (hwf : func.WellFormed)
    (hmem : qop ∈ func.ops) (hq : QuantizeCastOp.dynCast qop = some q)
    (h : matchAndRewrite fw q ⟨func, q.id⟩ = .ok (.success, rw'))
    {op : Operation} (hop : op ∈ func.ops) (hne : op ≠ qop) :
    op.replaceUsesOfWith (.opResult q.id 0) (storageCastResult func q) ∈ rw'.func.ops := by
  obtain ⟨pre, post, hops⟩ := List.append_of_mem hmem
  have hops' : (⟨func, q.id⟩ : PatternRewriter).func.ops = pre ++ qop :: post := hops
  obtain ⟨value, qty, nv, nty, definingOp, -, -, -, -, hshape, -, -⟩ :=
    @rewrite_shape _ _ ⟨func, q.id⟩ _ _ _ _ hwf rfl hops' hq h
  rw [hshape]
  rw [hops] at hop
  simp only [List.mem_append, List.mem_cons] at hop
  rcases hop with hop | hop | hop
  · exact List.mem_append_left _ (List.mem_map_of_mem _ hop)
  · exact absurd hop hne
  · exact List.mem_append_right _
      (List.mem_cons_of_mem _ (List.mem_cons_of_mem _ (List.mem_map_of_mem _ hop)))

/-- C8: after a successful rewrite the cast is no longer in the body.
`matchAndRewrite` itself leaves the operation defining the original constant
in place; the driver step then removes it when the cast was its only use, and
keeps it (same identity, name, payload, type and location) when another
operation uses it. -/
theorem cast_and_unused_constant_removed (fw : Framework) (func : FuncBody)
    (qop : Operation) (q : QuantizeCastOp) (rw' : PatternRewriter)
    (hwf : func.WellFormed) (hmem : qop ∈ func.ops)
    (hq : QuantizeCastOp.dynCast qop = some q)
    (h : matchAndRewrite fw q ⟨func, q.id⟩ = .ok (.success, rw')) :
    ∃ definingOp,
      getDefiningOp func q.getArg = some definingOp ∧
      rw'.func.lookup q.id = none ∧
      (∃ kept ∈ rw'.func.ops, kept.id = definingOp.id) ∧
      (visit [QuantizedConstRewrite fw] func q.id).1 = true ∧
      (visit [QuantizedConstRewrite fw] func q.id).2.lookup q.id = none ∧
      ((∀ op ∈ func.ops, op ≠ qop →
          ∀ v ∈ op.operands, v.source.isResultOf definingOp.id = false) →
        (visit [QuantizedConstRewrite fw] func q.id).2.lookup definingOp.id = none) ∧
      ((∃ op ∈ func.ops, op ≠ qop ∧
          ∃ v ∈ op.operands, v.source.isResultOf definingOp.id = true) →
        ∃ kept ∈ (visit [QuantizedConstRewrite fw] func q.id).2.ops,
          kept.id = definingOp.id ∧ kept.name = definingOp.name ∧
          kept.value = definingOp.value ∧ kept.resultTypes = definingOp.resultTypes ∧
          kept.loc = definingOp.loc ∧ (definingOp.operands = [] → kept = definingOp)) := by
  obtain ⟨value, qty, sty, nv, nty, d, hv, -, -, -, -, -, hd, -⟩ :=
    matchAndRewrite_success_inv h
  have hd' : getDefiningOp func q.getArg = some d := hd
  have hm : m_Constant d = some value := by
    have := @matchPattern_of_definingOp _ _ m_Constant _ hd'
    rw [← this]
    exact hv
  obtain ⟨hdmem, hdne, hdq⟩ := definingOp_ne_cast hwf hmem hq hd' hm
  obtain ⟨-, index, hsrc⟩ := getDefiningOp_source hd'
  have hvisit := visit_of_success hwf hmem hq h
  have hgone := lookup_cast_after_rewrite hwf hmem hq h
  have hkept := mem_after_rewrite hwf hmem hq h hdmem hdq
  have huses := hasUses_after_rewrite hwf hmem hq h hdmem hdne
  refine ⟨d, hd', hgone, ⟨_, hkept, rfl⟩, ?_, ?_, ?_, ?_⟩
  · rw [hvisit]
  · rw [hvisit]
    exact lookup_none_of_sub (eraseIfUnused_ops_sub _ _) hgone
  · intro honly
    have hno : rw'.func.hasUses d.id = false := by
      rw [Bool.eq_false_iff]
      intro hyes
      obtain ⟨op, hop, hne, v, hv', hr⟩ := huses.1 hyes
      rw [honly op hop hne v hv'] at hr
      exact Bool.false_ne_true hr
    rw [hvisit, eraseIfUnused_of_source hsrc, hno]
    simp only [Bool.false_eq_true, if_false]
    unfold FuncBody.lookup eraseOp
    apply find_none_of_ne
    intro op hop
    simpa using (List.mem_filter.1 hop).2
  · intro hother
    have hyes : rw'.func.hasUses d.id = true := huses.2 hother
    rw [hvisit, eraseIfUnused_of_source hsrc, hyes]
    simp only [if_true]
    refine ⟨_, hkept, rfl, rfl, rfl, rfl, rfl, ?_⟩
    intro hz
    cases d with
    | mk id name operands resultTypes value loc =>
      simp only at hz
      subst hz
      rfl

theorem cast_and_unused_constant_removed_witness :
    (visit [QuantizedConstRewrite sampleFramework] sampleBody 1).2.lookup 1 = none ∧
      (visit [QuantizedConstRewrite sampleFramework] sampleBody 1).2.lookup 0 = none := by
  obtain ⟨d, hd, -, -, -, hcast, honly, -⟩ :=
    cast_and_unused_constant_removed sampleFramework sampleBody
      { id := 1, name := .QuantizeCastOp, operands := [⟨.opResult 0 0, ⟨1⟩⟩],
        resultTypes := [⟨3⟩], value := none, loc := ⟨11⟩ }
      sampleCast ⟨sampleFolded, 1⟩ (by decide) (by decide) rfl rfl
  have hd0 : getDefiningOp sampleBody sampleCast.getArg =
      some { id := 0, name := .ConstantOp, operands := [], resultTypes := [⟨1⟩],
             value := some ⟨.DenseElementsAttr, 7⟩, loc := ⟨10⟩ } := rfl
  rw [hd0] at hd
  simp only [Option.some.injEq] at hd
  subst hd
  exact ⟨hcast, honly (by decide)⟩

theorem applyPatterns_single_none_iff {fw : Framework} {op : Operation}
    {rw : PatternRewriter} :
    applyPatterns [QuantizedConstRewrite fw] op rw = none ↔
      ∀ q, QuantizeCastOp.dynCast op = some q →
        ¬ ∃ rw', matchAndRewrite fw q rw = .ok (.success, rw') := by
  constructor
  · rintro h q hq ⟨rw', hs⟩
    rw [applyPatterns_single_success hq hs] at h
    simp at h
  · intro h
    cases hq : QuantizeCastOp.dynCast op with
    | none => exact applyPatterns_single_not_cast hq
    | some q =>
      rcases matchAndRewrite_cases fw q rw with hs | hf
      · exact absurd hs (h q hq)
      · exact applyPatterns_single_failure hq hf

theorem applyPatterns_single_some {fw : Framework} {op : Operation}
    {rw rw' : PatternRewriter}
    (h : applyPatterns [QuantizedConstRewrite fw] op rw = some rw') :
    ∃ q, QuantizeCastOp.dynCast op = some q ∧
      matchAndRewrite fw q rw = .ok (.success, rw') := by
  cases hq : QuantizeCastOp.dynCast op with
  | none => rw [applyPatterns_single_not_cast hq] at h; simp at h
  | some q =>
    rcases matchAndRewrite_cases fw q rw with ⟨rw'', hs⟩ | hf
    · rw [applyPatterns_single_success hq hs] at h
      simp only [Option.some.injEq] at h
      subst h
      exact ⟨q, rfl, hs⟩
    · rw [applyPatterns_single_failure hq hf] at h; simp at h

/-- Whether the pattern succeeds depends on the cast only through the matched
payload, the result type and the operand type. -/
theorem success_transfer {fw : Framework} {q q' : QuantizeCastOp}
    {rw rw1 rw1' : PatternRewriter}
    (hres : q'.resultType = q.resultType) (hty : q'.arg.type = q.arg.type)
    (hmatch : ∀ value, matchPattern rw1.func q'.getArg m_Constant = some value →
      matchPattern rw.func q.getArg m_Constant = some value)
    (h : matchAndRewrite fw q' rw1 = .ok (.success, rw1')) :
    ∃ rw', matchAndRewrite fw q rw = .ok (.success, rw') := by
  obtain ⟨value, qty, sty, nv, nty, definingOp, hv, hqt, hs, hc, hk, hn, -, -⟩ :=
    matchAndRewrite_success_inv h
  have e1 : q'.getResult.type = q.getResult.type := hres
  have e2 : q'.getArg.type = q.getArg.type := hty
  rw [e1] at hqt hs
  rw [e2] at hc
  exact matchAndRewrite_of_checks (hmatch value hv) hqt hs hc hk hn

theorem dynCast_replaceUses {old : ValueSource} {new : Value} {o : Operation}
    {q' : QuantizeCastOp}
    (h : QuantizeCastOp.dynCast (o.replaceUsesOfWith old new) = some q') :
    ∃ q0, QuantizeCastOp.dynCast o = some q0 ∧ q'.resultType = q0.resultType ∧
      q'.arg = (if q0.arg.source = old then new else q0.arg) ∧ q0.arg ∈ o.operands := by
  obtain ⟨hname, hoper, hres, hid, hloc⟩ := dynCast_some h
  simp only [Operation.replaceUsesOfWith, replaceUses] at hname hoper hres
  cases ho : o.operands with
  | nil => rw [ho] at hoper; simp at hoper
  | cons a rest =>
    rw [ho] at hoper
    simp only [List.map_cons, List.cons.injEq, List.map_eq_nil_iff] at hoper
    obtain ⟨ha, hrest⟩ := hoper
    subst hrest
    refine ⟨⟨o.id, a, q'.resultType, o.loc⟩, ?_, rfl, ha.symm, by simp⟩
    unfold QuantizeCastOp.dynCast
    simp only [hname, ho, hres]

/-- A constant matched through an operand after a successful rewrite was
already matched through the same operand before it; the result of the storage
cast never matches. -/
theorem matchPattern_after_rewrite {fw : Framework} {func func1 : FuncBody}
    {qop : Operation} {q : QuantizeCastOp} {rw' : PatternRewriter}
    (hwf : func.WellFormed) (hmem : qop ∈ func.ops)
    (hq : QuantizeCastOp.dynCast qop = some q)
    (h : matchAndRewrite fw q ⟨func, q.id⟩ = .ok (.success, rw'))
    (hsub : ∀ op ∈ func1.ops, op ∈ rw'.func.ops)
    {o : Operation} (ho : o ∈ func.ops) {v : Value} (hv : v ∈ o.operands)
    {value : Attribute}
    (hm : matchPattern func1
      (if v.source = .opResult q.id 0 then storageCastResult func q else v) m_Constant =
        some value) :
    matchPattern func v m_Constant = some value ∧
      (if v.source = .opResult q.id 0 then storageCastResult func q else v) = v := by
  obtain ⟨pre, post, hops⟩ := List.append_of_mem hmem
  have hops' : (⟨func, q.id⟩ : PatternRewriter).func.ops = pre ++ qop :: post := hops
  obtain ⟨value0, qty, nv, nty, definingOp, -, -, -, -, hshape, -, -⟩ :=
    @rewrite_shape _ _ ⟨func, q.id⟩ _ _ _ _ hwf rfl hops' hq h
  have hbound : ∀ op ∈ func.ops, op.id < func.nextId := hwf.2.1
  obtain ⟨d1, hd1, hmd1⟩ := matchPattern_some hm
  obtain ⟨hd1mem, index, hsrc⟩ := getDefiningOp_source hd1
  have hd1' := hsub d1 hd1mem
  rw [hshape] at hd1'
  simp only [List.mem_append, List.mem_cons, List.mem_map] at hd1'
  -- the operation found is an old one, the new constant or the storage cast
  have hold : ∀ o1 ∈ func.ops,
      d1 = o1.replaceUsesOfWith (.opResult q.id 0)
        (storageCastResult (⟨func, q.id⟩ : PatternRewriter).func q) →
      matchPattern func v m_Constant = some value ∧
        (if v.source = .opResult q.id 0 then storageCastResult func q else v) = v := by
    intro o1 ho1 hd1eq
    have hid1 : d1.id = o1.id := by rw [hd1eq]; rfl
    have hm1 : m_Constant o1 = some value := by
      rw [hd1eq] at hmd1
      exact hmd1
    by_cases hvq : v.source = .opResult q.id 0
    · rw [if_pos hvq] at hsrc
      simp only [storageCastResult, ValueSource.opResult.injEq] at hsrc
      have := hbound o1 ho1
      rw [← hid1, ← hsrc.1] at this
      exact absurd this (Nat.not_lt.2 (Nat.le_succ _))
    · rw [if_neg hvq] at hsrc ⊢
      refine ⟨?_, rfl⟩
      have hdef : getDefiningOp func v = some o1 := by
        unfold getDefiningOp
        simp only [hsrc, hid1]
        exact lookup_of_mem hwf ho1
      rw [matchPattern_of_definingOp hdef]
      exact hm1
  rcases hd1' with ⟨o1, ho1, ho1eq⟩ | hc | hs | ⟨o1, ho1, ho1eq⟩
  · exact hold o1 (by rw [hops]; simp [ho1]) ho1eq.symm
  · -- the new constant: its identity is not below `nextId`
    exfalso
    by_cases hvq : v.source = .opResult q.id 0
    · rw [if_pos hvq] at hsrc
      rw [hc] at hsrc
      simp [storageCastResult, newConstOpOf] at hsrc
    · rw [if_neg hvq] at hsrc
      have := hwf.2.2 o ho v hv
      rw [hsrc, hc] at this
      simp [ValueSource.ownerBelow, newConstOpOf] at this
  · exfalso
    rw [hs] at hmd1
    simp [m_Constant, storageCastOpOf, OpName.hasConstantLikeTrait] at hmd1
  · exact hold o1 (by rw [hops]; simp [ho1]) ho1eq.symm

theorem eraseIfUnused_wellFormed {func : FuncBody} (hwf : func.WellFormed) (v : Value) :
    (eraseIfUnused func v).WellFormed := by
  have hsub := eraseIfUnused_ops_sub func v
  have hnext := eraseIfUnused_nextId func v
  refine ⟨?_, ?_, ?_⟩
  · unfold eraseIfUnused
    split
    · split
      · exact hwf.1
      · exact List.Nodup.sublist (List.Sublist.map _ (List.filter_sublist _)) hwf.1
    · exact hwf.1
  · intro op hop
    rw [hnext]
    exact hwf.2.1 op (hsub op hop)
  · intro op hop w hw
    rw [hnext]
    exact hwf.2.2 op (hsub op hop) w hw

theorem visit_lookup_none {patterns : List RewritePattern} {func : FuncBody} {id : OpId}
    (hl : func.lookup id = none) : visit patterns func id = (false, func) := by
  unfold visit
  simp only [hl]

theorem visit_unmatched {patterns : List RewritePattern} {func : FuncBody} {id : OpId}
    {op : Operation} (hl : func.lookup id = some op)
    (ha : applyPatterns patterns op ⟨func, id⟩ = none) :
    visit patterns func id = (false, func) := by
  unfold visit
  simp only [hl, ha]

theorem visit_matched {patterns : List RewritePattern} {func : FuncBody} {id : OpId}
    {op : Operation} {rw' : PatternRewriter} (hl : func.lookup id = some op)
    (ha : applyPatterns patterns op ⟨func, id⟩ = some rw') :
    visit patterns func id = (true, op.operands.foldl eraseIfUnused rw'.func) := by
  unfold visit
  simp only [hl, ha]

/-- One work-list item keeps the body well formed and settles the visited
operation without unsettling any other. -/
theorem visit_invariant {fw : Framework} {func : FuncBody} {id : OpId} {rest : List OpId}
    (hwf : func.WellFormed) (hset : SettledOutside fw func (id :: rest)) :
    (visit [QuantizedConstRewrite fw] func id).2.WellFormed ∧
      SettledOutside fw (visit [QuantizedConstRewrite fw] func id).2 rest := by
  cases hl : func.lookup id with
  | none =>
    rw [visit_lookup_none hl]
    refine ⟨hwf, ?_⟩
    intro op hop hnot
    apply hset op hop
    simp only [List.mem_cons, not_or]
    refine ⟨?_, hnot⟩
    intro hid
    unfold FuncBody.lookup at hl
    rw [List.find?_eq_none] at hl
    have := hl op hop
    simp [hid] at this
  | some qop =>
    obtain ⟨hmem, hqid⟩ := lookup_mem hl
    cases ha : applyPatterns [QuantizedConstRewrite fw] qop ⟨func, id⟩ with
    | none =>
      rw [visit_unmatched hl ha]
      refine ⟨hwf, ?_⟩
      intro op hop hnot
      by_cases hid : op.id = id
      · have : op = qop := mem_eq_of_id_eq hwf.1 hop hmem (hid.trans hqid.symm)
        subst this
        rw [hid]
        exact ha
      · apply hset op hop
        simp only [List.mem_cons, not_or]
        exact ⟨hid, hnot⟩
    | some rw' =>
      obtain ⟨q, hq, hs⟩ := applyPatterns_single_some ha
      obtain ⟨hname, hoper, -, hid, -⟩ := dynCast_some hq
      have hqi : q.id = id := hid.trans hqid
      rw [← hqi] at hs
      have hwf' : rw'.func.WellFormed :=
        @rewrite_wellFormed _ _ ⟨func, q.id⟩ _ _ hwf rfl hmem hq hs
      rw [visit_matched hl ha]
      simp only [hoper, List.foldl_cons, List.foldl_nil]
      refine ⟨eraseIfUnused_wellFormed hwf' _, ?_⟩
      intro op' hop' hnot
      rw [applyPatterns_single_none_iff]
      rintro q' hq' ⟨rw1', hs'⟩
      have hop'' := eraseIfUnused_ops_sub _ _ op' hop'
      obtain ⟨pre, post, hops⟩ := List.append_of_mem hmem
      have hops' : (⟨func, q.id⟩ : PatternRewriter).func.ops = pre ++ qop :: post := hops
      obtain ⟨value0, qty, nv, nty, definingOp, -, -, -, -, hshape, -, -⟩ :=
        @rewrite_shape _ _ ⟨func, q.id⟩ _ _ _ _ hwf rfl hops' hq hs
      obtain ⟨hpre, hpost, -⟩ := wellFormed_split_ids hwf hops
      rw [hshape] at hop''
      simp only [List.mem_append, List.mem_cons, List.mem_map] at hop''
      have hold : ∀ o ∈ func.ops, o.id ≠ qop.id →
          o.replaceUsesOfWith (.opResult q.id 0)
            (storageCastResult (⟨func, q.id⟩ : PatternRewriter).func q) = op' → False := by
        intro o ho hone hoeq
        subst hoeq
        obtain ⟨q0, hq0, hres, harg, hargmem⟩ := dynCast_replaceUses hq'
        have hsettled : applyPatterns [QuantizedConstRewrite fw] o ⟨func, o.id⟩ = none := by
          apply hset o ho
          simp only [List.mem_cons, not_or]
          refine ⟨?_, hnot⟩
          rw [← hqid]
          exact hone
        have hmatch : ∀ value,
            matchPattern (eraseIfUnused rw'.func q.arg) q'.getArg m_Constant = some value →
            matchPattern func q0.getArg m_Constant = some value := by
          intro value hm
          have hm' : matchPattern (eraseIfUnused rw'.func q.arg)
              (if q0.arg.source = .opResult q.id 0 then storageCastResult func q
                else q0.arg) m_Constant = some value := by
            have : q'.getArg = (if q0.arg.source = .opResult q.id 0
                then storageCastResult func q else q0.arg) := harg
            rw [← this]
            exact hm
          exact (matchPattern_after_rewrite hwf hmem hq hs
            (eraseIfUnused_ops_sub _ _) ho hargmem hm').1
        have hty : q'.arg.type = q0.arg.type := by
          by_cases hvq : q0.arg.source = .opResult q.id 0
          · -- the storage-cast result never matches
            exfalso
            obtain ⟨value, -, -, -, -, -, hv, -⟩ := matchAndRewrite_success_inv hs'
            have hm' : matchPattern (eraseIfUnused rw'.func q.arg)
                (if q0.arg.source = .opResult q.id 0 then storageCastResult func q
                  else q0.arg) m_Constant = some value := by
              have : q'.getArg = (if q0.arg.source = .opResult q.id 0
                  then storageCastResult func q else q0.arg) := harg
              rw [← this]
              exact hv
            have h2 := (matchPattern_after_rewrite hwf hmem hq hs
              (eraseIfUnused_ops_sub _ _) ho hargmem hm').2
            rw [if_pos hvq] at h2
            have h3 : (storageCastResult func q).source = q0.arg.source := by rw [h2]
            rw [hvq] at h3
            simp only [storageCastResult, ValueSource.opResult.injEq, and_true] at h3
            have hlt : qop.id < func.nextId := hwf.2.1 qop hmem
            rw [← hid, ← h3] at hlt
            exact absurd hlt (Nat.not_lt.2 (Nat.le_succ _))
          · rw [harg, if_neg hvq]
        obtain ⟨rw0', hs0⟩ := @success_transfer _ q0 _ ⟨func, o.id⟩ _ _ hres hty hmatch hs'
        exact (applyPatterns_single_none_iff.1 hsettled) q0 hq0 ⟨rw0', hs0⟩
      rcases hop'' with ⟨o, ho, hoeq⟩ | hc | hsc | ⟨o, ho, hoeq⟩
      · exact hold o (by rw [hops]; simp [ho]) (hpre o ho) hoeq
      · subst hc
        simp [QuantizeCastOp.dynCast, newConstOpOf] at hq'
      · subst hsc
        simp [QuantizeCastOp.dynCast, storageCastOpOf] at hq'
      · exact hold o (by rw [hops]; simp [ho]) (hpost o ho) hoeq

/-- One traversal settles every operation it was asked to visit. -/
theorem sweep_invariant {fw : Framework} (ids : List OpId) :
    ∀ func : FuncBody, func.WellFormed → SettledOutside fw func ids →
      (sweep [QuantizedConstRewrite fw] ids func).2.WellFormed ∧
        Settled fw (sweep [QuantizedConstRewrite fw] ids func).2 := by
  induction ids with
  | nil =>
    intro func hwf hset
    exact ⟨hwf, fun op hop => hset op hop (List.not_mem_nil _)⟩
  | cons id rest ih =>
    intro func hwf hset
    obtain ⟨hwf1, hset1⟩ := visit_invariant hwf hset
    have := ih _ hwf1 hset1
    simpa [sweep] using this

/-- On a settled body a traversal changes nothing. -/
theorem sweep_settled {fw : Framework} {func : FuncBody} (hset : Settled fw func)
    (ids : List OpId) : sweep [QuantizedConstRewrite fw] ids func = (false, func) := by
  induction ids with
  | nil => rfl
  | cons id rest ih =>
    have hv : visit [QuantizedConstRewrite fw] func id = (false, func) := by
      cases hl : func.lookup id with
      | none => exact visit_lookup_none hl
      | some op =>
        obtain ⟨hmem, hid⟩ := lookup_mem hl
        have := hset op hmem
        rw [hid] at this
        exact visit_unmatched hl this
    simp [sweep, hv, ih]

theorem simplify_settled {fw : Framework} {func : FuncBody} (hset : Settled fw func)
    (further : Nat) : simplify [QuantizedConstRewrite fw] further func = (.success, func) := by
  cases further with
  | zero => simp [simplify, sweep_settled hset]
  | succ n => simp [simplify, sweep_settled hset]

/-- The driver ends on a settled body, whatever the iteration limit. -/
theorem simplify_invariant {fw : Framework} (further : Nat) :
    ∀ func : FuncBody, func.WellFormed →
      (simplify [QuantizedConstRewrite fw] further func).2.WellFormed ∧
        Settled fw (simplify [QuantizedConstRewrite fw] further func).2 := by
  induction further with
  | zero =>
    intro func hwf
    have := @sweep_invariant fw (func.ops.map (fun op => op.id)) func hwf
      (fun op hop hnot => absurd (List.mem_map.2 ⟨op, hop, rfl⟩) hnot)
    simpa [simplify] using this
  | succ n ih =>
    intro func hwf
    have hsw := @sweep_invariant fw (func.ops.map (fun op => op.id)) func hwf
      (fun op hop hnot => absurd (List.mem_map.2 ⟨op, hop, rfl⟩) hnot)
    unfold simplify
    cases hc : (sweep [QuantizedConstRewrite fw] (func.ops.map (fun op => op.id)) func).1 with
    | true =>
      have := ih _ hsw.1
      simpa [hc] using this
    | false => simpa [hc] using hsw

/-- C5: with the driver iterating the pattern over all operations of the
body, running the pass twice on a well-formed body gives the same state as
running it once, whatever the iteration limit: after one run `matchAndRewrite`
fails on every `QuantizeCastOp` left in the body, the constants and storage
casts a rewrite introduces never being matched. -/
theorem runOnOperation_idempotent (fw : Framework) (maxIterations : Nat) (pass : ConvertConstPass)
    (hwf : pass.func.WellFormed) :
    runOnOperation fw (greedyDriver maxIterations)
        (runOnOperation fw (greedyDriver maxIterations) pass) =
      runOnOperation fw (greedyDriver maxIterations) pass ∧
    (∀ op ∈ (runOnOperation fw (greedyDriver maxIterations) pass).func.ops,
      ∀ q, QuantizeCastOp.dynCast op = some q →
        matchAndRewrite fw q ⟨(runOnOperation fw (greedyDriver maxIterations) pass).func, q.id⟩
          = .ok (.failure,
              ⟨(runOnOperation fw (greedyDriver maxIterations) pass).func, q.id⟩)) := by
  have hinv := @simplify_invariant fw (maxIterations - 1) pass.func hwf
  have hrun : (runOnOperation fw (greedyDriver maxIterations) pass).func =
      (simplify [QuantizedConstRewrite fw] (maxIterations - 1) pass.func).2 := rfl
  constructor
  · have h2 := simplify_settled hinv.2 (maxIterations - 1)
    simp only [runOnOperation, greedyDriver, List.nil_append, h2]
  · intro op hop q hq
    rw [hrun] at hop ⊢
    have hnone := hinv.2 op hop
    obtain ⟨-, -, -, hid, -⟩ := dynCast_some hq
    rw [← hid] at hnone
    rcases matchAndRewrite_cases fw q
      ⟨(simplify [QuantizedConstRewrite fw] (maxIterations - 1) pass.func).2, q.id⟩ with hs | hf
    · exact absurd hs (applyPatterns_single_none_iff.1 hnone q hq)
    · exact hf

theorem runOnOperation_idempotent_witness :
    runOnOperation sampleFramework (greedyDriver 10)
        (runOnOperation sampleFramework (greedyDriver 10) ⟨sampleBody, false⟩) =
      runOnOperation sampleFramework (greedyDriver 10) ⟨sampleBody, false⟩ ∧
    (runOnOperation sampleFramework (greedyDriver 10) ⟨sampleBody, false⟩).func =
      samplePassed :=
  ⟨(runOnOperation_idempotent sampleFramework 10 ⟨sampleBody, false⟩ (by decide)).1, rfl⟩

/-! ## Evaluation on the concrete instance -/

theorem sample_matchAndRewrite :
    matchAndRewrite sampleFramework sampleCast ⟨sampleBody, 1⟩ =
      .ok (.success, ⟨sampleFolded, 1⟩) := by rfl

theorem sample_visit :
    visit [QuantizedConstRewrite sampleFramework] sampleBody 1 = (true, samplePassed) := by
  rfl

theorem sample_greedyDriver :
    greedyDriver 10 sampleBody [QuantizedConstRewrite sampleFramework] =
      (.success, samplePassed) := by rfl

theorem sample_wellFormed : sampleBody.WellFormed := by decide

end ConvertConst
